import Mathlib

set_option maxHeartbeats 1600000

/-!
# Verification of the `Serializable` binary codec

Shallow embedding of the repository: the `Serializable` trait of
`src/serializable.rs` (primitive and container impls) together with the code
emitted by the `#[derive(Serializable)]` macro of
`serializable_derive/src/lib.rs` (records as field-wise concatenation, tagged
unions as a one-byte discriminant followed by the chosen variant's fields).

Byte sequences are modelled as `List Nat` (every entry a value `< 256` in the
real program).  Machine integers are modelled as `Nat` / `Int` with explicit
`% 2 ^ w` where the Rust code can overflow.  A fallible `deserialize` returns a
`DR`: `ok value bytesConsumed`, an `error` carrying the kind of
`std::io::Error` the source builds, or `crash`, which models a Rust panic
(out-of-bounds slice index or an overflowing checked arithmetic operation).
-/

/-- Error kinds: one per distinct `std::io::Error` message in the source.
`invalidLength` covers both the "Invalid data length" messages of the
primitive and container impls and the "Invalid data size" message emitted by
the derive macro for tagged unions on an empty window. -/
inductive ErrKind where
  | invalidLength
  | invalidAddressType
  | invalidUtf8
  | invalidBoolValue
  | invalidOptionType
  | invalidVariantIndex
  | invalidTime

/-- Result of a deserialization step: `ok v n` is `Ok((v, n))`, `error e` an
`Err(..)` with message kind `e`, and `crash` a Rust panic. -/
inductive DR (α : Type) where
  | ok (v : α) (n : Nat)
  | error (e : ErrKind)
  | crash

/-- Big-endian bytes of `n`, `w` bytes wide: models `to_be_bytes` applied after
an `as uW` cast, so the value is implicitly truncated to `n % 256 ^ w`. -/
def toBe : Nat → Nat → List Nat
  | 0, _ => []
  | w + 1, n => n / 256 ^ w % 256 :: toBe w n

/-- Big-endian value of the first `w` entries of `d`: models `uW::from_be_bytes`
applied to `d[0..w]` (callers establish `w ≤ d.length`). -/
def fromBe (w : Nat) (d : List Nat) : Nat :=
  (d.take w).foldl (fun acc b => acc * 256 + b) 0

/-- Two-complement (signed) reading of `n` modulo `m`: models an `as iN`
`from_be_bytes` reinterpretation, with `m = 2 ^ bits`. -/
def sInt (m : Nat) (n : Nat) : Int :=
  if 2 * n < m then (n : Int) else (n : Int) - (m : Int)

mutual

/-- Models Rust std UTF-8 validation (`String::from_utf8` / `str::from_utf8`):
accepts exactly the well-formed UTF-8 byte sequences (continuation bytes in
`80..BF`, no overlong forms, no surrogates, max `U+10FFFF`).  After a lead
byte, `utf8Cont` checks one continuation byte against its allowed range,
carrying the ranges still expected for the current scalar value. -/
def validUtf8 : List Nat → Bool
  | [] => true
  | b :: rest =>
    if b < 0x80 then validUtf8 rest
    else if b < 0xC2 then false
    else if b ≤ 0xDF then utf8Cont 0x80 0xBF rest []
    else if b = 0xE0 then utf8Cont 0xA0 0xBF rest [(0x80, 0xBF)]
    else if b = 0xED then utf8Cont 0x80 0x9F rest [(0x80, 0xBF)]
    else if b ≤ 0xEF then utf8Cont 0x80 0xBF rest [(0x80, 0xBF)]
    else if b = 0xF0 then utf8Cont 0x90 0xBF rest [(0x80, 0xBF), (0x80, 0xBF)]
    else if b ≤ 0xF3 then utf8Cont 0x80 0xBF rest [(0x80, 0xBF), (0x80, 0xBF)]
    else if b = 0xF4 then utf8Cont 0x80 0x8F rest [(0x80, 0xBF), (0x80, 0xBF)]
    else false
termination_by l => l.length

/-- Check one continuation byte against `[lo, hi]`, then the ranges in `more`,
then resume `validUtf8` on the remainder. -/
def utf8Cont (lo hi : Nat) : List Nat → List (Nat × Nat) → Bool
  | [], _ => false
  | b :: rest, more =>
    if lo ≤ b ∧ b ≤ hi then
      match more with
      | [] => validUtf8 rest
      | (lo2, hi2) :: ms => utf8Cont lo2 hi2 rest ms
    else false
termination_by l more => l.length

end

/-- `std::net::SocketAddr`: a V4 address holds four octets and a port; a V6
address holds eight 16-bit segments, a port, a `flowinfo` and a `scope_id`. -/
inductive SockAddr where
  | v4 (a b c d : Nat) (port : Nat)
  | v6 (s0 s1 s2 s3 s4 s5 s6 s7 : Nat) (port : Nat) (flowinfo : Nat) (scopeId : Nat)

/-- The closed universe of types implementing `Serializable`: the primitive
impls of `src/serializable.rs`, the container impls (`Vec`, `[T; L]`,
`Option`, `String`), and the shapes produced by `#[derive(Serializable)]`:
`prod ts` is a derived record (struct) with field types `ts` (named,
positional and unit structs all have this byte layout), and `sum vs` is a
derived tagged union whose `i`-th variant has field types `vs[i]`. -/
inductive Ty where
  | u8 | u16 | u32 | u64 | u128
  | i8 | i16 | i32 | i64 | i128
  | f32 | f64
  | bool
  | str
  | sock
  | time
  | vec (t : Ty)
  | arr (n : Nat) (t : Ty)
  | opt (t : Ty)
  | prod (ts : List Ty)
  | sum (vs : List (List Ty))

mutual

/-- Structural size of a type, used as a termination measure. -/
def tySize : Ty → Nat
  | .vec t => tySize t + 1
  | .arr _ t => tySize t + 1
  | .opt t => tySize t + 1
  | .prod ts => tyListSize ts + 1
  | .sum vs => tyListListSize vs + 1
  | _ => 1

def tyListSize : List Ty → Nat
  | [] => 0
  | t :: ts => tySize t + tyListSize ts

def tyListListSize : List (List Ty) → Nat
  | [] => 0
  | ts :: vs => tyListSize ts + tyListListSize vs

end

/-- Values of the universe.  Unsigned integers and IEEE float bit patterns are
`Nat`, signed integers are `Int`; `str` carries the UTF-8 bytes of a `String`;
`time` is a `SystemTime` at or after the Unix epoch, split into whole seconds
and subsecond nanoseconds; `record`/`variant` are derived struct and enum
values. -/
inductive Val where
  | u8 (n : Nat) | u16 (n : Nat) | u32 (n : Nat) | u64 (n : Nat) | u128 (n : Nat)
  | i8 (n : Int) | i16 (n : Int) | i32 (n : Int) | i64 (n : Int) | i128 (n : Int)
  | f32 (bits : Nat) | f64 (bits : Nat)
  | bool (b : Bool)
  | str (bytes : List Nat)
  | sock (a : SockAddr)
  | time (secs : Nat) (nanos : Nat)
  | vec (elems : List Val)
  | arr (elems : List Val)
  | opt (o : Option Val)
  | record (fields : List Val)
  | variant (i : Nat) (fields : List Val)

mutual

/-- `Serializable::serialize`, case by case from `src/serializable.rs` and the
code generated by `impl_serializable` in `serializable_derive/src/lib.rs`.
The `% 256` / `% 2 ^ w` reductions record the `as uN` casts and byte pushes of
the source (identity on well-typed values). -/
def serializeVal : Val → List Nat
  | .u8 n => [n % 256]
  | .u16 n => toBe 2 n
  | .u32 n => toBe 4 n
  | .u64 n => toBe 8 n
  | .u128 n => toBe 16 n
  | .i8 n => [(n % 256).toNat]
  | .i16 n => toBe 2 (n % 2 ^ 16).toNat
  | .i32 n => toBe 4 (n % 2 ^ 32).toNat
  | .i64 n => toBe 8 (n % 2 ^ 64).toNat
  | .i128 n => toBe 16 (n % 2 ^ 128).toNat
  | .f32 bits => toBe 4 bits
  | .f64 bits => toBe 8 bits
  | .bool b => [if b then 1 else 0]
  | .str bytes => toBe 4 bytes.length ++ bytes
  | .sock (.v4 a b c d port) => [0, a, b, c, d] ++ toBe 2 port
  | .sock (.v6 s0 s1 s2 s3 s4 s5 s6 s7 port _ _) =>
      1 :: (toBe 2 s0 ++ toBe 2 s1 ++ toBe 2 s2 ++ toBe 2 s3 ++
            toBe 2 s4 ++ toBe 2 s5 ++ toBe 2 s6 ++ toBe 2 s7) ++ toBe 2 port
  | .time secs _ => toBe 8 secs
  | .vec elems => toBe 4 elems.length ++ serializeVals elems
  | .arr elems => serializeVals elems
  | .opt none => [0]
  | .opt (some v) => 1 :: serializeVal v
  | .record fields => serializeVals fields
  | .variant i fields => i % 256 :: serializeVals fields

/-- Concatenation of the encodings of a list of values (field loop of the
derive macro, element loop of the `Vec` / array impls). -/
def serializeVals : List Val → List Nat
  | [] => []
  | v :: vs => serializeVal v ++ serializeVals vs

end

theorem tySize_pos : ∀ t : Ty, 0 < tySize t := by
  intro t
  cases t <;> simp [tySize]

theorem tyListSize_le_of_mem {ts : List Ty} {t : Ty} (h : t ∈ ts) :
    tySize t ≤ tyListSize ts := by
  induction ts with
  | nil => cases h
  | cons t' ts ih =>
    rcases List.mem_cons.mp h with rfl | h
    · simp [tyListSize]
    · have := ih h
      simp [tyListSize]
      omega

theorem tyListListSize_le_of_mem {vs : List (List Ty)} {ts : List Ty} (h : ts ∈ vs) :
    tyListSize ts ≤ tyListListSize vs := by
  induction vs with
  | nil => cases h
  | cons ts' vs ih =>
    rcases List.mem_cons.mp h with rfl | h
    · simp [tyListListSize]
    · have := ih h
      simp [tyListListSize]
      omega

/-- Platform bound on representable `SystemTime` instants: on a 64-bit Unix
target a `SystemTime` stores seconds as a signed 64-bit count, so
`UNIX_EPOCH.checked_add(Duration::from_secs(secs))` succeeds exactly when
`secs` fits that count.  (Models the standard library, which is outside this
repository.) -/
def sysTimeMaxSecs : Nat := 2 ^ 63 - 1

mutual

/-- `Serializable::deserialize` on a byte window, case by case from
`src/serializable.rs` and the derive macro.  `crash` marks the places where
the source indexes a slice out of bounds or overflows a checked `u32`
addition; all other paths mirror the guards of the source in their original
order. -/
def deserialize : Ty → List Nat → DR Val
  | .u8, d => if d.length < 1 then .error .invalidLength else .ok (.u8 (d.headD 0)) 1
  | .u16, d => if d.length < 2 then .error .invalidLength else .ok (.u16 (fromBe 2 d)) 2
  | .u32, d => if d.length < 4 then .error .invalidLength else .ok (.u32 (fromBe 4 d)) 4
  | .u64, d => if d.length < 8 then .error .invalidLength else .ok (.u64 (fromBe 8 d)) 8
  | .u128, d => if d.length < 16 then .error .invalidLength else .ok (.u128 (fromBe 16 d)) 16
  | .i8, d =>
      if d.length < 1 then .error .invalidLength
      else .ok (.i8 (sInt (2 ^ 8) (d.headD 0))) 1
  | .i16, d =>
      if d.length < 2 then .error .invalidLength
      else .ok (.i16 (sInt (2 ^ 16) (fromBe 2 d))) 2
  | .i32, d =>
      if d.length < 4 then .error .invalidLength
      else .ok (.i32 (sInt (2 ^ 32) (fromBe 4 d))) 4
  | .i64, d =>
      if d.length < 8 then .error .invalidLength
      else .ok (.i64 (sInt (2 ^ 64) (fromBe 8 d))) 8
  | .i128, d =>
      if d.length < 16 then .error .invalidLength
      else .ok (.i128 (sInt (2 ^ 128) (fromBe 16 d))) 16
  | .f32, d => if d.length < 4 then .error .invalidLength else .ok (.f32 (fromBe 4 d)) 4
  | .f64, d => if d.length < 8 then .error .invalidLength else .ok (.f64 (fromBe 8 d)) 8
  | .bool, d =>
      if d.length < 1 then .error .invalidLength
      else if d.headD 0 = 0 then .ok (.bool false) 1
      else if d.headD 0 = 1 then .ok (.bool true) 1
      else .error .invalidBoolValue
  | .str, d =>
      if d.length < 4 then .error .invalidLength
      else
        -- the source computes `(len + 4) as usize` with `len : u32`: when the
        -- addition leaves `u32` range it panics (debug) or wraps below 4 and
        -- the subsequent slice `data[4..(len + 4) as usize]` panics (release)
        if 2 ^ 32 ≤ fromBe 4 d + 4 then .crash
        else if d.length < fromBe 4 d + 4 then .error .invalidLength
        else if validUtf8 ((d.drop 4).take (fromBe 4 d)) then
          .ok (.str ((d.drop 4).take (fromBe 4 d))) (fromBe 4 d + 4)
        else .error .invalidUtf8
  | .sock, d =>
      if d.length < 1 then .error .invalidLength
      else
        match d.headD 0 with
        | 0 =>
          if d.length < 7 then .error .invalidLength
          else .ok (.sock (.v4 (d.getD 1 0) (d.getD 2 0) (d.getD 3 0) (d.getD 4 0)
            (fromBe 2 (d.drop 5)))) 7
        | 1 =>
          if d.length < 19 then .error .invalidLength
          else .ok (.sock (.v6 (fromBe 2 (d.drop 1)) (fromBe 2 (d.drop 3))
            (fromBe 2 (d.drop 5)) (fromBe 2 (d.drop 7)) (fromBe 2 (d.drop 9))
            (fromBe 2 (d.drop 11)) (fromBe 2 (d.drop 13)) (fromBe 2 (d.drop 15))
            (fromBe 2 (d.drop 17)) 0 0)) 19
        | _ => .error .invalidAddressType
  | .time, d =>
      if d.length < 8 then .error .invalidLength
      else if fromBe 8 d ≤ sysTimeMaxSecs then .ok (.time (fromBe 8 d) 0) 8
      else .error .invalidTime
  | .vec t, d =>
      if d.length < 4 then .error .invalidLength
      else
        match deLoop t d (fromBe 4 d) 4 with
        | .ok es read => .ok (.vec es) read
        | .error e => .error e
        | .crash => .crash
  | .arr n t, d =>
      match deLoop t d n 0 with
      | .ok es off => .ok (.arr es) off
      | .error e => .error e
      | .crash => .crash
  | .opt t, d =>
      if d.length < 1 then .error .invalidLength
      else
        match d.headD 0 with
        | 0 => .ok (.opt none) 1
        | 1 =>
          match deserialize t (d.drop 1) with
          | .ok v n => .ok (.opt (some v)) (n + 1)
          | .error e => .error e
          | .crash => .crash
        | _ => .error .invalidOptionType
  | .prod ts, d =>
      match deFields ts d 0 with
      | .ok fs off => .ok (.record fs) off
      | .error e => .error e
      | .crash => .crash
  | .sum vs, d =>
      -- source message here: "Invalid data size"
      if d.length = 0 then .error .invalidLength
      else if h : d.headD 0 < vs.length then
        match deFields (vs.get ⟨d.headD 0, h⟩) d 1 with
        | .ok fs off => .ok (.variant (d.headD 0) fs) off
        | .error e => .error e
        | .crash => .crash
      else .error .invalidVariantIndex
termination_by t d => (tySize t, 0)
decreasing_by
  all_goals simp_wf
  all_goals
    first
    | (apply Prod.Lex.left
       simp only [tySize]
       omega)
    | (apply Prod.Lex.left
       simp only [tySize]
       apply Nat.lt_succ_of_le
       apply tyListListSize_le_of_mem
       apply List.getElem_mem)

/-- Element loop of the `Vec` and `[T; L]` deserializers: `count` remaining
iterations, `read` the accumulated absolute offset into `d`.  Each iteration
re-slices `&data[read..]`, which panics (`crash`) when `read` exceeds the
window length. -/
def deLoop : Ty → List Nat → Nat → Nat → DR (List Val)
  | _, _, 0, read => .ok [] read
  | t, d, count + 1, read =>
      if read ≤ d.length then
        match deserialize t (d.drop read) with
        | .ok v n =>
          match deLoop t d count (read + n) with
          | .ok es read' => .ok (v :: es) read'
          | .error e => .error e
          | .crash => .crash
        | .error e => .error e
        | .crash => .crash
      else .crash
termination_by t d count read => (tySize t, count + 1)
decreasing_by
  all_goals simp_wf
  all_goals
    first
    | (apply Prod.Lex.right; omega)
    | (apply Prod.Lex.left
       simp only [tySize]
       omega)

/-- Field loop of the derived `deserialize`: decode each field type in order
from `&bytes[offset..]`, accumulating the offset. -/
def deFields : List Ty → List Nat → Nat → DR (List Val)
  | [], _, read => .ok [] read
  | t :: ts, d, read =>
      if read ≤ d.length then
        match deserialize t (d.drop read) with
        | .ok v n =>
          match deFields ts d (read + n) with
          | .ok fs read' => .ok (v :: fs) read'
          | .error e => .error e
          | .crash => .crash
        | .error e => .error e
        | .crash => .crash
      else .crash
termination_by ts d read => (tyListSize ts, 1)
decreasing_by
  all_goals simp_wf
  all_goals
    first
    | (simp only [Prod.lex_def, tyListSize]
       omega)
    | (have hpos := tySize_pos t
       simp only [Prod.lex_def, tyListSize]
       omega)

end

mutual

/-- Rust typing of a value at a universe type: the value shape matches the
type and every machine integer is within its range (invariants the Rust type
system enforces).  For a tagged union the derive macro emits `bytes.push(i)`
with `i` a `u8` literal, so a derivable union has at most 256 variants. -/
def hasTy : Ty → Val → Bool
  | .u8, .u8 n => n < 2 ^ 8
  | .u16, .u16 n => n < 2 ^ 16
  | .u32, .u32 n => n < 2 ^ 32
  | .u64, .u64 n => n < 2 ^ 64
  | .u128, .u128 n => n < 2 ^ 128
  | .i8, .i8 n => -(2 ^ 7) ≤ n ∧ n < 2 ^ 7
  | .i16, .i16 n => -(2 ^ 15) ≤ n ∧ n < 2 ^ 15
  | .i32, .i32 n => -(2 ^ 31) ≤ n ∧ n < 2 ^ 31
  | .i64, .i64 n => -(2 ^ 63) ≤ n ∧ n < 2 ^ 63
  | .i128, .i128 n => -(2 ^ 127) ≤ n ∧ n < 2 ^ 127
  | .f32, .f32 bits => bits < 2 ^ 32
  | .f64, .f64 bits => bits < 2 ^ 64
  | .bool, .bool _ => true
  | .str, .str bytes => validUtf8 bytes
  | .sock, .sock (.v4 a b c d port) =>
      a < 2 ^ 8 ∧ b < 2 ^ 8 ∧ c < 2 ^ 8 ∧ d < 2 ^ 8 ∧ port < 2 ^ 16
  | .sock, .sock (.v6 s0 s1 s2 s3 s4 s5 s6 s7 port flowinfo scopeId) =>
      s0 < 2 ^ 16 ∧ s1 < 2 ^ 16 ∧ s2 < 2 ^ 16 ∧ s3 < 2 ^ 16 ∧ s4 < 2 ^ 16 ∧
      s5 < 2 ^ 16 ∧ s6 < 2 ^ 16 ∧ s7 < 2 ^ 16 ∧ port < 2 ^ 16 ∧
      flowinfo < 2 ^ 32 ∧ scopeId < 2 ^ 32
  | .time, .time secs nanos => secs ≤ sysTimeMaxSecs ∧ nanos < 1000000000
  | .vec t, .vec es => hasTyList t es
  | .arr n t, .arr es => decide (es.length = n) && hasTyList t es
  | .opt _, .opt none => true
  | .opt t, .opt (some v) => hasTy t v
  | .prod ts, .record fs => hasTyFields ts fs
  | .sum vs, .variant i fs =>
      decide (vs.length ≤ 256) &&
        (if h : i < vs.length then hasTyFields (vs.get ⟨i, h⟩) fs else false)
  | _, _ => false

def hasTyList : Ty → List Val → Bool
  | _, [] => true
  | t, v :: es => hasTy t v && hasTyList t es

def hasTyFields : List Ty → List Val → Bool
  | [], [] => true
  | t :: ts, v :: fs => hasTy t v && hasTyFields ts fs
  | _, _ => false

end

mutual

/-- Every length the encoder truncates to `u32` fits: each string is at most
`2 ^ 32 - 5` bytes (beyond that the `(len + 4) as u32` computation during decode
overflows) and each `Vec` has fewer than `2 ^ 32` elements. -/
def boundedVal : Val → Bool
  | .str bytes => bytes.length + 4 < 2 ^ 32
  | .vec es => decide (es.length < 2 ^ 32) && boundedList es
  | .arr es => boundedList es
  | .opt (some v) => boundedVal v
  | .opt none => true
  | .record fs => boundedList fs
  | .variant _ fs => boundedList fs
  | _ => true

def boundedList : List Val → Bool
  | [] => true
  | v :: vs => boundedVal v && boundedList vs

end

mutual

/-- The value the decoder reconstructs from the encoding of a value: identical
to the input except that a timestamp loses its subsecond nanoseconds (the
encoder stores whole seconds) and a V6 socket address loses its `flowinfo`
and `scope_id` (the decoder rebuilds it with zeros). -/
def normalizeVal : Val → Val
  | .time secs _ => .time secs 0
  | .sock (.v6 s0 s1 s2 s3 s4 s5 s6 s7 port _ _) =>
      .sock (.v6 s0 s1 s2 s3 s4 s5 s6 s7 port 0 0)
  | .vec es => .vec (normalizeVals es)
  | .arr es => .arr (normalizeVals es)
  | .opt (some v) => .opt (some (normalizeVal v))
  | .record fs => .record (normalizeVals fs)
  | .variant i fs => .variant i (normalizeVals fs)
  | v => v

def normalizeVals : List Val → List Val
  | [] => []
  | v :: vs => normalizeVal v :: normalizeVals vs

end

@[simp] theorem toBe_length (w n : Nat) : (toBe w n).length = w := by
  induction w generalizing n with
  | zero => rfl
  | succ w ih => simp [toBe, ih]

theorem fromBe_foldl_toBe (w : Nat) : ∀ (n acc : Nat) (extra : List Nat),
    ((toBe w n ++ extra).take w).foldl (fun a b => a * 256 + b) acc =
      acc * 256 ^ w + n % 256 ^ w := by
  induction w with
  | zero => intro n acc extra; simp [toBe, Nat.mod_one]
  | succ w ih =>
    intro n acc extra
    rw [show toBe (w + 1) n = n / 256 ^ w % 256 :: toBe w n from rfl]
    rw [List.cons_append, List.take_succ_cons, List.foldl_cons]
    rw [ih n (acc * 256 + n / 256 ^ w % 256) extra]
    have hmul : 256 ^ (w + 1) = 256 ^ w * 256 := by ring
    rw [hmul, Nat.mod_mul]
    ring

theorem fromBe_toBe (w n : Nat) (extra : List Nat) :
    fromBe w (toBe w n ++ extra) = n % 256 ^ w := by
  rw [fromBe, fromBe_foldl_toBe]
  simp

theorem fromBe_toBe_of_lt {w n : Nat} (h : n < 256 ^ w) (extra : List Nat) :
    fromBe w (toBe w n ++ extra) = n := by
  rw [fromBe_toBe, Nat.mod_eq_of_lt h]

theorem fromBe_eq_of_take_eq {w : Nat} {d d' : List Nat} (h : d.take w = d'.take w) :
    fromBe w d = fromBe w d' := by
  rw [fromBe, fromBe, h]

/-- A prefix at least `w` long determines the first `w` bytes. -/
theorem fromBe_of_front {w : Nat} {p l : List Nat} (h : p <+: l) (hw : w ≤ p.length) :
    fromBe w p = fromBe w l := by
  apply fromBe_eq_of_take_eq
  rcases h with ⟨r, rfl⟩
  rw [List.take_append_of_le_length hw]

theorem sInt_emod_toNat (b : Nat) (n : Int) (h1 : -(2 ^ b) ≤ n) (h2 : n < 2 ^ b) :
    sInt (2 ^ (b + 1)) ((n % 2 ^ (b + 1)).toNat) = n := by
  have hsZ : (2 : Int) ^ (b + 1) = 2 ^ b + 2 ^ b := by ring
  have hsN : (2 : Nat) ^ (b + 1) = 2 ^ b + 2 ^ b := by rw [pow_succ]; omega
  have hcast : ((2 ^ (b + 1) : Nat) : Int) = (2 : Int) ^ (b + 1) := by push_cast; rfl
  have hcb : ((2 ^ b : Nat) : Int) = (2 : Int) ^ b := by push_cast; rfl
  have hposZ : (0 : Int) < 2 ^ b := by positivity
  rcases le_or_lt 0 n with hn | hn
  · have he : n % 2 ^ (b + 1) = n := Int.emod_eq_of_lt hn (by omega)
    rw [sInt, he]
    split
    · omega
    · omega
  · have he : n % 2 ^ (b + 1) = n + 2 ^ (b + 1) := by
      have h0 := @Int.add_mul_emod_self_left n (2 ^ (b + 1)) 1
      rw [mul_one] at h0
      rw [← h0]
      exact Int.emod_eq_of_lt (by omega) (by omega)
    rw [sInt, he]
    split
    · omega
    · omega

@[simp] theorem validUtf8_nil : validUtf8 [] = true := by
  simp [validUtf8]

/-- An ASCII byte at the front just recurses: lets `simp` evaluate `validUtf8`
on concrete ASCII strings. -/
theorem validUtf8_ascii {b : Nat} (h : b < 128) (rest : List Nat) :
    validUtf8 (b :: rest) = validUtf8 rest := by
  conv_lhs => rw [validUtf8]
  rw [if_pos h]

theorem validUtf8_replicate (n a : Nat) (h : a < 128) :
    validUtf8 (List.replicate n a) = true := by
  induction n with
  | zero => simp
  | succ n ih => rw [List.replicate_succ, validUtf8_ascii h, ih]

/-- Splitting a long enough prefix of an append at the append boundary. -/
theorem prefix_append_split {p a b : List Nat} (h : p <+: a ++ b)
    (hl : a.length ≤ p.length) : ∃ q, p = a ++ q ∧ q <+: b := by
  have h2 := List.prefix_iff_eq_take.mp h
  rw [List.take_append_eq_append_take, List.take_of_length_le hl] at h2
  exact ⟨b.take (p.length - a.length), h2, List.take_prefix _ _⟩

/-- A short prefix of an append is a prefix of the left part. -/
theorem prefix_append_short {p a b : List Nat} (h : p <+: a ++ b)
    (hl : p.length ≤ a.length) : p <+: a := by
  have h2 := List.prefix_iff_eq_take.mp h
  rw [List.take_append_of_le_length hl] at h2
  rw [h2]
  exact List.take_prefix _ _

theorem serializeVals_nil : serializeVals [] = [] := by simp [serializeVals]

theorem serializeVals_cons (v : Val) (es : List Val) :
    serializeVals (v :: es) = serializeVal v ++ serializeVals es := by
  simp [serializeVals]

theorem normalizeVals_nil : normalizeVals [] = [] := by simp [normalizeVals]

theorem normalizeVals_cons (v : Val) (es : List Val) :
    normalizeVals (v :: es) = normalizeVal v :: normalizeVals es := by
  simp [normalizeVals]

theorem hasTyList_mem {t : Ty} {es : List Val} (h : hasTyList t es = true) :
    ∀ v ∈ es, hasTy t v = true := by
  induction es with
  | nil => intro v hv; cases hv
  | cons w es ih =>
    intro v hv
    simp only [hasTyList, Bool.and_eq_true] at h
    rcases List.mem_cons.mp hv with rfl | hv
    · exact h.1
    · exact ih h.2 v hv

theorem boundedList_mem {es : List Val} (h : boundedList es = true) :
    ∀ v ∈ es, boundedVal v = true := by
  induction es with
  | nil => intro v hv; cases hv
  | cons w es ih =>
    intro v hv
    simp only [boundedList, Bool.and_eq_true] at h
    rcases List.mem_cons.mp hv with rfl | hv
    · exact h.1
    · exact ih h.2 v hv

/-- Round-trip through the element loop: if every well-typed bounded value of
type `t` decodes from its own encoding (plus junk), the loop decodes a list of
such values from their concatenated encodings, consuming exactly their total
length. -/
theorem deLoop_ok (t : Ty)
    (H : ∀ v : Val, hasTy t v = true → boundedVal v = true →
      ∀ extra : List Nat,
        deserialize t (serializeVal v ++ extra) = .ok (normalizeVal v) (serializeVal v).length) :
    ∀ (es : List Val), hasTyList t es = true → boundedList es = true →
    ∀ (d : List Nat) (read : Nat) (extra : List Nat),
      d.drop read = serializeVals es ++ extra → read ≤ d.length →
      deLoop t d es.length read = .ok (normalizeVals es) (read + (serializeVals es).length) := by
  intro es
  induction es with
  | nil =>
    intro _ _ d read extra hdrop hle
    simp [deLoop, serializeVals_nil, normalizeVals_nil]
  | cons v es ih =>
    intro hty hb d read extra hdrop hle
    simp only [hasTyList, Bool.and_eq_true] at hty
    simp only [boundedList, Bool.and_eq_true] at hb
    rw [serializeVals_cons, List.append_assoc] at hdrop
    have hv := H v hty.1 hb.1 (serializeVals es ++ extra)
    have hlen : d.length - read = (serializeVal v).length + ((serializeVals es).length + extra.length) := by
      have := congrArg List.length hdrop
      simpa using this
    have hle2 : read + (serializeVal v).length ≤ d.length := by omega
    have hdrop2 : d.drop (read + (serializeVal v).length) = serializeVals es ++ extra := by
      rw [← List.drop_drop, hdrop, List.drop_left]
    have hrec := ih hty.2 hb.2 d (read + (serializeVal v).length) extra hdrop2 hle2
    rw [List.length_cons, deLoop, if_pos hle, hdrop, hv]
    simp only [hrec, normalizeVals_cons, serializeVals_cons, List.length_append]
    congr 1
    omega

/-- Round-trip through the derived field loop, fields typed position-wise. -/
theorem deFields_ok :
    ∀ (ts : List Ty) (fs : List Val),
    (∀ t ∈ ts, ∀ v : Val, hasTy t v = true → boundedVal v = true →
      ∀ extra : List Nat,
        deserialize t (serializeVal v ++ extra) = .ok (normalizeVal v) (serializeVal v).length) →
    hasTyFields ts fs = true → boundedList fs = true →
    ∀ (d : List Nat) (read : Nat) (extra : List Nat),
      d.drop read = serializeVals fs ++ extra → read ≤ d.length →
      deFields ts d read = .ok (normalizeVals fs) (read + (serializeVals fs).length) := by
  intro ts
  induction ts with
  | nil =>
    intro fs _ hty _ d read extra hdrop hle
    cases fs with
    | nil => simp [deFields, serializeVals_nil, normalizeVals_nil]
    | cons v fs => simp [hasTyFields] at hty
  | cons t ts ih =>
    intro fs H hty hb d read extra hdrop hle
    cases fs with
    | nil => simp [hasTyFields] at hty
    | cons v fs =>
      simp only [hasTyFields, Bool.and_eq_true] at hty
      simp only [boundedList, Bool.and_eq_true] at hb
      rw [serializeVals_cons, List.append_assoc] at hdrop
      have hv := H t (List.mem_cons_self t ts) v hty.1 hb.1 (serializeVals fs ++ extra)
      have hlen : d.length - read = (serializeVal v).length + ((serializeVals fs).length + extra.length) := by
        have := congrArg List.length hdrop
        simpa using this
      have hle2 : read + (serializeVal v).length ≤ d.length := by omega
      have hdrop2 : d.drop (read + (serializeVal v).length) = serializeVals fs ++ extra := by
        rw [← List.drop_drop, hdrop, List.drop_left]
      have hrec := ih fs (fun t' ht' => H t' (List.mem_cons_of_mem t ht')) hty.2 hb.2 d
        (read + (serializeVal v).length) extra hdrop2 hle2
      rw [deFields, if_pos hle, hdrop, hv]
      simp only [hrec, normalizeVals_cons, serializeVals_cons, List.length_append]
      congr 1
      omega

theorem not_append_len_lt {w : Nat} {l : List Nat} (h : l.length = w) (extra : List Nat) :
    ¬ ((l ++ extra).length < w) := by
  simp only [List.length_append, h]
  omega

theorem rt_u8 (n : Nat) (h : n < 2 ^ 8) (extra : List Nat) :
    deserialize .u8 (serializeVal (.u8 n) ++ extra) =
      .ok (normalizeVal (.u8 n)) (serializeVal (.u8 n)).length := by
  have hser : serializeVal (.u8 n) = [n] := by
    simp [serializeVal, Nat.mod_eq_of_lt (show n < 256 by omega)]
  rw [hser, deserialize, if_neg (not_append_len_lt (by simp) extra)]
  simp [normalizeVal]

theorem rt_u16 (n : Nat) (h : n < 2 ^ 16) (extra : List Nat) :
    deserialize .u16 (serializeVal (.u16 n) ++ extra) =
      .ok (normalizeVal (.u16 n)) (serializeVal (.u16 n)).length := by
  have hser : serializeVal (.u16 n) = toBe 2 n := by simp [serializeVal]
  rw [hser, deserialize, if_neg (not_append_len_lt (toBe_length 2 n) extra),
    fromBe_toBe_of_lt (show n < 256 ^ 2 by omega)]
  simp [normalizeVal]

theorem rt_u32 (n : Nat) (h : n < 2 ^ 32) (extra : List Nat) :
    deserialize .u32 (serializeVal (.u32 n) ++ extra) =
      .ok (normalizeVal (.u32 n)) (serializeVal (.u32 n)).length := by
  have hser : serializeVal (.u32 n) = toBe 4 n := by simp [serializeVal]
  rw [hser, deserialize, if_neg (not_append_len_lt (toBe_length 4 n) extra),
    fromBe_toBe_of_lt (show n < 256 ^ 4 by omega)]
  simp [normalizeVal]

theorem rt_u64 (n : Nat) (h : n < 2 ^ 64) (extra : List Nat) :
    deserialize .u64 (serializeVal (.u64 n) ++ extra) =
      .ok (normalizeVal (.u64 n)) (serializeVal (.u64 n)).length := by
  have hser : serializeVal (.u64 n) = toBe 8 n := by simp [serializeVal]
  rw [hser, deserialize, if_neg (not_append_len_lt (toBe_length 8 n) extra),
    fromBe_toBe_of_lt (show n < 256 ^ 8 by omega)]
  simp [normalizeVal]

theorem rt_u128 (n : Nat) (h : n < 2 ^ 128) (extra : List Nat) :
    deserialize .u128 (serializeVal (.u128 n) ++ extra) =
      .ok (normalizeVal (.u128 n)) (serializeVal (.u128 n)).length := by
  have hser : serializeVal (.u128 n) = toBe 16 n := by simp [serializeVal]
  rw [hser, deserialize, if_neg (not_append_len_lt (toBe_length 16 n) extra),
    fromBe_toBe_of_lt (show n < 256 ^ 16 by omega)]
  simp [normalizeVal]

theorem rt_f32 (n : Nat) (h : n < 2 ^ 32) (extra : List Nat) :
    deserialize .f32 (serializeVal (.f32 n) ++ extra) =
      .ok (normalizeVal (.f32 n)) (serializeVal (.f32 n)).length := by
  have hser : serializeVal (.f32 n) = toBe 4 n := by simp [serializeVal]
  rw [hser, deserialize, if_neg (not_append_len_lt (toBe_length 4 n) extra),
    fromBe_toBe_of_lt (show n < 256 ^ 4 by omega)]
  simp [normalizeVal]

theorem rt_f64 (n : Nat) (h : n < 2 ^ 64) (extra : List Nat) :
    deserialize .f64 (serializeVal (.f64 n) ++ extra) =
      .ok (normalizeVal (.f64 n)) (serializeVal (.f64 n)).length := by
  have hser : serializeVal (.f64 n) = toBe 8 n := by simp [serializeVal]
  rw [hser, deserialize, if_neg (not_append_len_lt (toBe_length 8 n) extra),
    fromBe_toBe_of_lt (show n < 256 ^ 8 by omega)]
  simp [normalizeVal]

theorem emod_toNat_lt_pow (b : Nat) (n : Int) :
    (n % (2 : Int) ^ b).toNat < 2 ^ b := by
  have h1 := Int.emod_nonneg n (show ((2 : Int) ^ b) ≠ 0 by positivity)
  have h2 := Int.emod_lt_of_pos n (show (0 : Int) < 2 ^ b by positivity)
  have h3 : ((2 ^ b : Nat) : Int) = (2 : Int) ^ b := by push_cast; rfl
  omega

theorem rt_i8 (n : Int) (h1 : -(2 ^ 7) ≤ n) (h2 : n < 2 ^ 7) (extra : List Nat) :
    deserialize .i8 (serializeVal (.i8 n) ++ extra) =
      .ok (normalizeVal (.i8 n)) (serializeVal (.i8 n)).length := by
  have hs := sInt_emod_toNat 7 n h1 h2
  have hser : serializeVal (.i8 n) = [(n % 256).toNat] := by simp [serializeVal]
  rw [hser, deserialize, if_neg (not_append_len_lt (by simp) extra)]
  simp only [List.cons_append, List.headD_cons, normalizeVal, List.length_cons,
    List.length_nil]
  norm_num at hs ⊢
  rw [hs]

theorem rt_i16 (n : Int) (h1 : -(2 ^ 15) ≤ n) (h2 : n < 2 ^ 15) (extra : List Nat) :
    deserialize .i16 (serializeVal (.i16 n) ++ extra) =
      .ok (normalizeVal (.i16 n)) (serializeVal (.i16 n)).length := by
  have hs := sInt_emod_toNat 15 n h1 h2
  have hlt : (n % (2 : Int) ^ 16).toNat < 256 ^ 2 := by
    have := emod_toNat_lt_pow 16 n
    omega
  have hser : serializeVal (.i16 n) = toBe 2 (n % 2 ^ 16).toNat := by simp [serializeVal]
  rw [hser, deserialize, if_neg (not_append_len_lt (toBe_length 2 _) extra),
    fromBe_toBe_of_lt hlt]
  simp only [normalizeVal, toBe_length]
  norm_num at hs ⊢
  rw [hs]

theorem rt_i32 (n : Int) (h1 : -(2 ^ 31) ≤ n) (h2 : n < 2 ^ 31) (extra : List Nat) :
    deserialize .i32 (serializeVal (.i32 n) ++ extra) =
      .ok (normalizeVal (.i32 n)) (serializeVal (.i32 n)).length := by
  have hs := sInt_emod_toNat 31 n h1 h2
  have hlt : (n % (2 : Int) ^ 32).toNat < 256 ^ 4 := by
    have := emod_toNat_lt_pow 32 n
    omega
  have hser : serializeVal (.i32 n) = toBe 4 (n % 2 ^ 32).toNat := by simp [serializeVal]
  rw [hser, deserialize, if_neg (not_append_len_lt (toBe_length 4 _) extra),
    fromBe_toBe_of_lt hlt]
  simp only [normalizeVal, toBe_length]
  norm_num at hs ⊢
  rw [hs]

theorem rt_i64 (n : Int) (h1 : -(2 ^ 63) ≤ n) (h2 : n < 2 ^ 63) (extra : List Nat) :
    deserialize .i64 (serializeVal (.i64 n) ++ extra) =
      .ok (normalizeVal (.i64 n)) (serializeVal (.i64 n)).length := by
  have hs := sInt_emod_toNat 63 n h1 h2
  have hlt : (n % (2 : Int) ^ 64).toNat < 256 ^ 8 := by
    have := emod_toNat_lt_pow 64 n
    omega
  have hser : serializeVal (.i64 n) = toBe 8 (n % 2 ^ 64).toNat := by simp [serializeVal]
  rw [hser, deserialize, if_neg (not_append_len_lt (toBe_length 8 _) extra),
    fromBe_toBe_of_lt hlt]
  simp only [normalizeVal, toBe_length]
  norm_num at hs ⊢
  rw [hs]

theorem rt_i128 (n : Int) (h1 : -(2 ^ 127) ≤ n) (h2 : n < 2 ^ 127) (extra : List Nat) :
    deserialize .i128 (serializeVal (.i128 n) ++ extra) =
      .ok (normalizeVal (.i128 n)) (serializeVal (.i128 n)).length := by
  have hs := sInt_emod_toNat 127 n h1 h2
  have hlt : (n % (2 : Int) ^ 128).toNat < 256 ^ 16 := by
    have := emod_toNat_lt_pow 128 n
    omega
  have hser : serializeVal (.i128 n) = toBe 16 (n % 2 ^ 128).toNat := by simp [serializeVal]
  rw [hser, deserialize, if_neg (not_append_len_lt (toBe_length 16 _) extra),
    fromBe_toBe_of_lt hlt]
  simp only [normalizeVal, toBe_length]
  norm_num at hs ⊢
  rw [hs]

theorem rt_bool (b : Bool) (extra : List Nat) :
    deserialize .bool (serializeVal (.bool b) ++ extra) =
      .ok (normalizeVal (.bool b)) (serializeVal (.bool b)).length := by
  cases b <;>
    simp [serializeVal, deserialize, normalizeVal]

theorem rt_time (secs nanos : Nat) (h : secs ≤ sysTimeMaxSecs) (extra : List Nat) :
    deserialize .time (serializeVal (.time secs nanos) ++ extra) =
      .ok (normalizeVal (.time secs nanos)) (serializeVal (.time secs nanos)).length := by
  have hser : serializeVal (.time secs nanos) = toBe 8 secs := by simp [serializeVal]
  have hlt : secs < 256 ^ 8 := by
    have : sysTimeMaxSecs = 2 ^ 63 - 1 := rfl
    omega
  rw [hser, deserialize, if_neg (not_append_len_lt (toBe_length 8 _) extra),
    fromBe_toBe_of_lt hlt]
  rw [if_pos h]
  simp [normalizeVal]

theorem rt_str (bs : List Nat) (hv : validUtf8 bs = true) (hb : bs.length + 4 < 2 ^ 32)
    (extra : List Nat) :
    deserialize .str (serializeVal (.str bs) ++ extra) =
      .ok (normalizeVal (.str bs)) (serializeVal (.str bs)).length := by
  have hser : serializeVal (.str bs) = toBe 4 bs.length ++ bs := by simp [serializeVal]
  have hlt : bs.length < 256 ^ 4 := by omega
  rw [hser, List.append_assoc, deserialize, fromBe_toBe_of_lt hlt,
    if_neg (not_append_len_lt (toBe_length 4 _) (bs ++ extra)),
    if_neg (by omega),
    if_neg (by simp only [List.length_append, toBe_length]; omega),
    List.drop_left' (toBe_length 4 _), List.take_left, if_pos hv]
  simp [normalizeVal, List.length_append, Nat.add_comm]

theorem drop_chain2 {d : List Nat} {k : Nat} {s : Nat} {R : List Nat}
    (h : d.drop k = toBe 2 s ++ R) (m : Nat) (hm : k + 2 = m) : d.drop m = R := by
  subst hm
  rw [← List.drop_drop, h, List.drop_left' (toBe_length 2 s)]

theorem rt_sock_v4 (a b c d port : Nat) (ha : a < 2 ^ 8) (hb : b < 2 ^ 8) (hc : c < 2 ^ 8)
    (hd : d < 2 ^ 8) (hp : port < 2 ^ 16) (extra : List Nat) :
    deserialize .sock (serializeVal (.sock (.v4 a b c d port)) ++ extra) =
      .ok (normalizeVal (.sock (.v4 a b c d port)))
        (serializeVal (.sock (.v4 a b c d port))).length := by
  have hser : serializeVal (.sock (.v4 a b c d port)) =
      0 :: a :: b :: c :: d :: toBe 2 port := by simp [serializeVal]
  rw [hser]
  simp only [List.cons_append]
  rw [deserialize]
  rw [if_neg (by simp)]
  simp only [List.headD_cons]
  rw [if_neg (by simp only [List.length_cons, List.length_append, toBe_length]; omega)]
  have h5 : (0 :: a :: b :: c :: d :: (toBe 2 port ++ extra)).drop 5 = toBe 2 port ++ extra := rfl
  rw [h5, fromBe_toBe_of_lt (show port < 256 ^ 2 by omega)]
  simp [normalizeVal, List.getD]

theorem rt_sock_v6 (s0 s1 s2 s3 s4 s5 s6 s7 port fl sc : Nat)
    (h0 : s0 < 2 ^ 16) (h1 : s1 < 2 ^ 16) (h2 : s2 < 2 ^ 16) (h3 : s3 < 2 ^ 16)
    (h4 : s4 < 2 ^ 16) (h5 : s5 < 2 ^ 16) (h6 : s6 < 2 ^ 16) (h7 : s7 < 2 ^ 16)
    (hp : port < 2 ^ 16) (extra : List Nat) :
    deserialize .sock (serializeVal (.sock (.v6 s0 s1 s2 s3 s4 s5 s6 s7 port fl sc)) ++ extra) =
      .ok (normalizeVal (.sock (.v6 s0 s1 s2 s3 s4 s5 s6 s7 port fl sc)))
        (serializeVal (.sock (.v6 s0 s1 s2 s3 s4 s5 s6 s7 port fl sc))).length := by
  have hser : serializeVal (.sock (.v6 s0 s1 s2 s3 s4 s5 s6 s7 port fl sc)) =
      1 :: (toBe 2 s0 ++ (toBe 2 s1 ++ (toBe 2 s2 ++ (toBe 2 s3 ++ (toBe 2 s4 ++ (toBe 2 s5 ++
        (toBe 2 s6 ++ (toBe 2 s7 ++ toBe 2 port)))))))) := by
    simp [serializeVal]
  rw [hser]
  simp only [List.cons_append, List.append_assoc]
  rw [deserialize]
  rw [if_neg (by simp)]
  simp only [List.headD_cons]
  rw [if_neg (by simp only [List.length_cons, List.length_append, toBe_length]; omega)]
  have e1 : (1 :: (toBe 2 s0 ++ (toBe 2 s1 ++ (toBe 2 s2 ++ (toBe 2 s3 ++ (toBe 2 s4 ++
      (toBe 2 s5 ++ (toBe 2 s6 ++ (toBe 2 s7 ++ (toBe 2 port ++ extra)))))))))).drop 1 =
      toBe 2 s0 ++ (toBe 2 s1 ++ (toBe 2 s2 ++ (toBe 2 s3 ++ (toBe 2 s4 ++
      (toBe 2 s5 ++ (toBe 2 s6 ++ (toBe 2 s7 ++ (toBe 2 port ++ extra)))))))) := rfl
  have e3 := drop_chain2 e1 3 (by norm_num)
  have e5 := drop_chain2 e3 5 (by norm_num)
  have e7 := drop_chain2 e5 7 (by norm_num)
  have e9 := drop_chain2 e7 9 (by norm_num)
  have e11 := drop_chain2 e9 11 (by norm_num)
  have e13 := drop_chain2 e11 13 (by norm_num)
  have e15 := drop_chain2 e13 15 (by norm_num)
  have e17 := drop_chain2 e15 17 (by norm_num)
  rw [e1, e3, e5, e7, e9, e11, e13, e15, e17]
  rw [fromBe_toBe_of_lt (show s0 < 256 ^ 2 by omega),
    fromBe_toBe_of_lt (show s1 < 256 ^ 2 by omega),
    fromBe_toBe_of_lt (show s2 < 256 ^ 2 by omega),
    fromBe_toBe_of_lt (show s3 < 256 ^ 2 by omega),
    fromBe_toBe_of_lt (show s4 < 256 ^ 2 by omega),
    fromBe_toBe_of_lt (show s5 < 256 ^ 2 by omega),
    fromBe_toBe_of_lt (show s6 < 256 ^ 2 by omega),
    fromBe_toBe_of_lt (show s7 < 256 ^ 2 by omega),
    fromBe_toBe_of_lt (show port < 256 ^ 2 by omega)]
  simp [normalizeVal, List.length_append]

theorem rt_vec (t : Ty) (es : List Val)
    (H : ∀ v : Val, hasTy t v = true → boundedVal v = true → ∀ extra : List Nat,
      deserialize t (serializeVal v ++ extra) = .ok (normalizeVal v) (serializeVal v).length)
    (hty : hasTyList t es = true) (hlen : es.length < 2 ^ 32)
    (hb : boundedList es = true) (extra : List Nat) :
    deserialize (.vec t) (serializeVal (.vec es) ++ extra) =
      .ok (normalizeVal (.vec es)) (serializeVal (.vec es)).length := by
  have hser : serializeVal (.vec es) = toBe 4 es.length ++ serializeVals es := by
    simp [serializeVal, serializeVals]
  rw [hser, List.append_assoc, deserialize, fromBe_toBe_of_lt (show es.length < 256 ^ 4 by omega),
    if_neg (not_append_len_lt (toBe_length 4 _) (serializeVals es ++ extra))]
  have hloop := deLoop_ok t H es hty hb
    (toBe 4 es.length ++ (serializeVals es ++ extra)) 4 extra
    (List.drop_left' (toBe_length 4 _))
    (by simp only [List.length_append, toBe_length]; omega)
  rw [hloop]
  simp [normalizeVal, List.length_append, Nat.add_comm]

theorem rt_arr (n : Nat) (t : Ty) (es : List Val)
    (H : ∀ v : Val, hasTy t v = true → boundedVal v = true → ∀ extra : List Nat,
      deserialize t (serializeVal v ++ extra) = .ok (normalizeVal v) (serializeVal v).length)
    (hty : hasTyList t es = true) (hlen : es.length = n)
    (hb : boundedList es = true) (extra : List Nat) :
    deserialize (.arr n t) (serializeVal (.arr es) ++ extra) =
      .ok (normalizeVal (.arr es)) (serializeVal (.arr es)).length := by
  have hser : serializeVal (.arr es) = serializeVals es := by simp [serializeVal]
  rw [hser, deserialize]
  have hloop := deLoop_ok t H es hty hb (serializeVals es ++ extra) 0 extra (by simp) (by simp)
  rw [hlen] at hloop
  rw [hloop]
  simp [normalizeVal]

theorem rt_opt_none (t : Ty) (extra : List Nat) :
    deserialize (.opt t) (serializeVal (.opt none) ++ extra) =
      .ok (normalizeVal (.opt none)) (serializeVal (.opt none)).length := by
  have hser : serializeVal (.opt none) = [0] := by simp [serializeVal]
  rw [hser, deserialize]
  simp [normalizeVal]

theorem rt_opt_some (t : Ty) (w : Val)
    (H : ∀ v : Val, hasTy t v = true → boundedVal v = true → ∀ extra : List Nat,
      deserialize t (serializeVal v ++ extra) = .ok (normalizeVal v) (serializeVal v).length)
    (hty : hasTy t w = true) (hb : boundedVal w = true) (extra : List Nat) :
    deserialize (.opt t) (serializeVal (.opt (some w)) ++ extra) =
      .ok (normalizeVal (.opt (some w))) (serializeVal (.opt (some w))).length := by
  have hser : serializeVal (.opt (some w)) = 1 :: serializeVal w := by simp [serializeVal]
  rw [hser]
  simp only [List.cons_append]
  rw [deserialize]
  rw [if_neg (by simp)]
  simp only [List.headD_cons, List.drop_succ_cons, List.drop_zero]
  rw [H w hty hb extra]
  simp [normalizeVal, Nat.add_comm]

theorem rt_record (ts : List Ty) (fs : List Val)
    (H : ∀ t ∈ ts, ∀ v : Val, hasTy t v = true → boundedVal v = true → ∀ extra : List Nat,
      deserialize t (serializeVal v ++ extra) = .ok (normalizeVal v) (serializeVal v).length)
    (hty : hasTyFields ts fs = true) (hb : boundedList fs = true) (extra : List Nat) :
    deserialize (.prod ts) (serializeVal (.record fs) ++ extra) =
      .ok (normalizeVal (.record fs)) (serializeVal (.record fs)).length := by
  have hser : serializeVal (.record fs) = serializeVals fs := by simp [serializeVal]
  rw [hser, deserialize]
  have hfl := deFields_ok ts fs H hty hb (serializeVals fs ++ extra) 0 extra (by simp) (by simp)
  rw [hfl]
  simp [normalizeVal]

theorem rt_variant (vs : List (List Ty)) (i : Nat) (fs : List Val)
    (hi : i < vs.length) (h256 : vs.length ≤ 256)
    (H : ∀ t ∈ vs.get ⟨i, hi⟩, ∀ v : Val, hasTy t v = true → boundedVal v = true →
      ∀ extra : List Nat,
        deserialize t (serializeVal v ++ extra) = .ok (normalizeVal v) (serializeVal v).length)
    (hty : hasTyFields (vs.get ⟨i, hi⟩) fs = true) (hb : boundedList fs = true)
    (extra : List Nat) :
    deserialize (.sum vs) (serializeVal (.variant i fs) ++ extra) =
      .ok (normalizeVal (.variant i fs)) (serializeVal (.variant i fs)).length := by
  have hser : serializeVal (.variant i fs) = i :: serializeVals fs := by
    simp [serializeVal, Nat.mod_eq_of_lt (show i < 256 by omega)]
  rw [hser]
  simp only [List.cons_append]
  rw [deserialize]
  rw [if_neg (by simp)]
  simp only [List.headD_cons]
  rw [dif_pos hi]
  have hfl := deFields_ok (vs.get ⟨i, hi⟩) fs H hty hb (i :: (serializeVals fs ++ extra)) 1 extra
    (by simp) (by simp)
  rw [hfl]
  simp [normalizeVal, Nat.add_comm]

/-- Main round-trip invariant (strong induction on the type): a well-typed,
length-bounded value decodes from its own encoding followed by arbitrary
trailing bytes, yielding its normalized form and consuming exactly the
length of the encoding. -/
theorem deser_ser_aux :
    ∀ (N : Nat) (t : Ty), tySize t ≤ N → ∀ v : Val,
      hasTy t v = true → boundedVal v = true → ∀ extra : List Nat,
      deserialize t (serializeVal v ++ extra) = .ok (normalizeVal v) (serializeVal v).length := by
  intro N
  induction N with
  | zero =>
    intro t ht
    have := tySize_pos t
    omega
  | succ N ih =>
    intro t ht v hty hb extra
    cases t with
    | u8 =>
      cases v
      case u8 n =>
        simp only [hasTy, decide_eq_true_eq] at hty
        exact rt_u8 n hty extra
      all_goals exact Bool.noConfusion hty
    | u16 =>
      cases v
      case u16 n =>
        simp only [hasTy, decide_eq_true_eq] at hty
        exact rt_u16 n hty extra
      all_goals exact Bool.noConfusion hty
    | u32 =>
      cases v
      case u32 n =>
        simp only [hasTy, decide_eq_true_eq] at hty
        exact rt_u32 n hty extra
      all_goals exact Bool.noConfusion hty
    | u64 =>
      cases v
      case u64 n =>
        simp only [hasTy, decide_eq_true_eq] at hty
        exact rt_u64 n hty extra
      all_goals exact Bool.noConfusion hty
    | u128 =>
      cases v
      case u128 n =>
        simp only [hasTy, decide_eq_true_eq] at hty
        exact rt_u128 n hty extra
      all_goals exact Bool.noConfusion hty
    | i8 =>
      cases v
      case i8 n =>
        simp only [hasTy, decide_eq_true_eq] at hty
        exact rt_i8 n hty.1 hty.2 extra
      all_goals exact Bool.noConfusion hty
    | i16 =>
      cases v
      case i16 n =>
        simp only [hasTy, decide_eq_true_eq] at hty
        exact rt_i16 n hty.1 hty.2 extra
      all_goals exact Bool.noConfusion hty
    | i32 =>
      cases v
      case i32 n =>
        simp only [hasTy, decide_eq_true_eq] at hty
        exact rt_i32 n hty.1 hty.2 extra
      all_goals exact Bool.noConfusion hty
    | i64 =>
      cases v
      case i64 n =>
        simp only [hasTy, decide_eq_true_eq] at hty
        exact rt_i64 n hty.1 hty.2 extra
      all_goals exact Bool.noConfusion hty
    | i128 =>
      cases v
      case i128 n =>
        simp only [hasTy, decide_eq_true_eq] at hty
        exact rt_i128 n hty.1 hty.2 extra
      all_goals exact Bool.noConfusion hty
    | f32 =>
      cases v
      case f32 n =>
        simp only [hasTy, decide_eq_true_eq] at hty
        exact rt_f32 n hty extra
      all_goals exact Bool.noConfusion hty
    | f64 =>
      cases v
      case f64 n =>
        simp only [hasTy, decide_eq_true_eq] at hty
        exact rt_f64 n hty extra
      all_goals exact Bool.noConfusion hty
    | bool =>
      cases v
      case bool b => exact rt_bool b extra
      all_goals exact Bool.noConfusion hty
    | str =>
      cases v
      case str bs =>
        simp only [hasTy] at hty
        simp only [boundedVal, decide_eq_true_eq] at hb
        exact rt_str bs hty hb extra
      all_goals exact Bool.noConfusion hty
    | sock =>
      cases v
      case sock a =>
        cases a with
        | v4 a b c d port =>
          simp only [hasTy, decide_eq_true_eq] at hty
          exact rt_sock_v4 a b c d port hty.1 hty.2.1 hty.2.2.1 hty.2.2.2.1 hty.2.2.2.2 extra
        | v6 s0 s1 s2 s3 s4 s5 s6 s7 port fl sc =>
          simp only [hasTy, decide_eq_true_eq] at hty
          exact rt_sock_v6 s0 s1 s2 s3 s4 s5 s6 s7 port fl sc hty.1 hty.2.1 hty.2.2.1
            hty.2.2.2.1 hty.2.2.2.2.1 hty.2.2.2.2.2.1 hty.2.2.2.2.2.2.1 hty.2.2.2.2.2.2.2.1
            hty.2.2.2.2.2.2.2.2.1 extra
      all_goals exact Bool.noConfusion hty
    | time =>
      cases v
      case time secs nanos =>
        simp only [hasTy, decide_eq_true_eq] at hty
        exact rt_time secs nanos hty.1 extra
      all_goals exact Bool.noConfusion hty
    | vec t =>
      cases v
      case vec es =>
        simp only [hasTy] at hty
        simp only [boundedVal, Bool.and_eq_true, decide_eq_true_eq] at hb
        have hts : tySize t ≤ N := by
          simp only [tySize] at ht
          omega
        exact rt_vec t es (fun v hv hb' extra' => ih t hts v hv hb' extra') hty hb.1 hb.2 extra
      all_goals exact Bool.noConfusion hty
    | arr n t =>
      cases v
      case arr es =>
        simp only [hasTy, Bool.and_eq_true, decide_eq_true_eq] at hty
        simp only [boundedVal] at hb
        have hts : tySize t ≤ N := by
          simp only [tySize] at ht
          omega
        exact rt_arr n t es (fun v hv hb' extra' => ih t hts v hv hb' extra') hty.2 hty.1 hb extra
      all_goals exact Bool.noConfusion hty
    | opt t =>
      cases v
      case opt o =>
        cases o with
        | none => exact rt_opt_none t extra
        | some w =>
          simp only [hasTy] at hty
          simp only [boundedVal] at hb
          have hts : tySize t ≤ N := by
            simp only [tySize] at ht
            omega
          exact rt_opt_some t w (fun v hv hb' extra' => ih t hts v hv hb' extra') hty hb extra
      all_goals exact Bool.noConfusion hty
    | prod ts =>
      cases v
      case record fs =>
        simp only [hasTy] at hty
        simp only [boundedVal] at hb
        have hts : ∀ t ∈ ts, tySize t ≤ N := by
          intro t' ht'
          have h1 := tyListSize_le_of_mem ht'
          simp only [tySize] at ht
          omega
        exact rt_record ts fs (fun t' ht' v hv hb' extra' => ih t' (hts t' ht') v hv hb' extra')
          hty hb extra
      all_goals exact Bool.noConfusion hty
    | sum vs =>
      cases v
      case variant i fs =>
        simp only [hasTy, Bool.and_eq_true, decide_eq_true_eq] at hty
        simp only [boundedVal] at hb
        obtain ⟨h256, hdite⟩ := hty
        by_cases hi : i < vs.length
        · rw [dif_pos hi] at hdite
          have hts : ∀ t ∈ vs.get ⟨i, hi⟩, tySize t ≤ N := by
            intro t' ht'
            have h1 := tyListSize_le_of_mem ht'
            have h2 := tyListListSize_le_of_mem (List.get_mem vs i hi)
            simp only [tySize] at ht
            omega
          exact rt_variant vs i fs hi h256
            (fun t' ht' v hv hb' extra' => ih t' (hts t' ht') v hv hb' extra') hdite hb extra
        · rw [dif_neg hi] at hdite
          exact Bool.noConfusion hdite
      all_goals exact Bool.noConfusion hty

/-- Round-trip plus trailing bytes, packaged without the induction counter. -/
theorem deser_ser (t : Ty) (v : Val) (hty : hasTy t v = true) (hb : boundedVal v = true)
    (extra : List Nat) :
    deserialize t (serializeVal v ++ extra) = .ok (normalizeVal v) (serializeVal v).length :=
  deser_ser_aux (tySize t) t le_rfl v hty hb extra

/-- Consumption invariant through the element loop. -/
theorem deLoop_consume (t : Ty)
    (H : ∀ (d : List Nat) (v : Val) (n : Nat),
      deserialize t d = .ok v n → n ≤ d.length ∧ (serializeVal v).length = n) :
    ∀ (count : Nat) (d : List Nat) (read : Nat) (es : List Val) (fin : Nat),
      read ≤ d.length → deLoop t d count read = .ok es fin →
      fin ≤ d.length ∧ fin = read + (serializeVals es).length := by
  intro count
  induction count with
  | zero =>
    intro d read es fin hle h
    rw [deLoop] at h
    cases h
    simp [serializeVals_nil]
    omega
  | succ count ihc =>
    intro d read es fin hle h
    rw [deLoop, if_pos hle] at h
    split at h
    · rename_i v n hde
      split at h
      · rename_i es' read' hloop
        injection h with he hf
        subst he
        have h1 := H (d.drop read) v n hde
        rw [List.length_drop] at h1
        have h2 := ihc d (read + n) es' read' (by omega) hloop
        rw [serializeVals_cons, List.length_append]
        omega
      · cases h
      · cases h
    · cases h
    · cases h

/-- Consumption invariant through the derived field loop. -/
theorem deFields_consume :
    ∀ (ts : List Ty),
    (∀ t ∈ ts, ∀ (d : List Nat) (v : Val) (n : Nat),
      deserialize t d = .ok v n → n ≤ d.length ∧ (serializeVal v).length = n) →
    ∀ (d : List Nat) (read : Nat) (fs : List Val) (fin : Nat),
      read ≤ d.length → deFields ts d read = .ok fs fin →
      fin ≤ d.length ∧ fin = read + (serializeVals fs).length := by
  intro ts
  induction ts with
  | nil =>
    intro H d read fs fin hle h
    rw [deFields] at h
    cases h
    simp [serializeVals_nil]
    omega
  | cons t ts ihc =>
    intro H d read fs fin hle h
    rw [deFields, if_pos hle] at h
    split at h
    · rename_i v n hde
      split at h
      · rename_i fs' read' hfl
        injection h with he hf
        subst he
        have h1 := H t (List.mem_cons_self t ts) (d.drop read) v n hde
        rw [List.length_drop] at h1
        have h2 := ihc (fun t' ht' => H t' (List.mem_cons_of_mem t ht')) d (read + n) fs' read'
          (by omega) hfl
        rw [serializeVals_cons, List.length_append]
        omega
      · cases h
      · cases h
    · cases h
    · cases h

/-- Main consumption invariant (strong induction on the type): a successful
decode never consumes more than the window and re-encoding the decoded value
yields exactly the consumed length. -/
theorem deser_consume_aux :
    ∀ (N : Nat) (t : Ty), tySize t ≤ N → ∀ (d : List Nat) (v : Val) (n : Nat),
      deserialize t d = .ok v n → n ≤ d.length ∧ (serializeVal v).length = n := by
  intro N
  induction N with
  | zero =>
    intro t ht
    have := tySize_pos t
    omega
  | succ N ih =>
    intro t ht d v n h
    cases t with
    | u8 =>
      rw [deserialize] at h
      split at h
      · cases h
      · rename_i hlen
        injection h with he hf
        subst he
        simp only [serializeVal, List.length_cons, List.length_nil]
        omega
    | u16 =>
      rw [deserialize] at h
      split at h
      · cases h
      · rename_i hlen
        injection h with he hf
        subst he
        simp only [serializeVal, toBe_length]
        omega
    | u32 =>
      rw [deserialize] at h
      split at h
      · cases h
      · rename_i hlen
        injection h with he hf
        subst he
        simp only [serializeVal, toBe_length]
        omega
    | u64 =>
      rw [deserialize] at h
      split at h
      · cases h
      · rename_i hlen
        injection h with he hf
        subst he
        simp only [serializeVal, toBe_length]
        omega
    | u128 =>
      rw [deserialize] at h
      split at h
      · cases h
      · rename_i hlen
        injection h with he hf
        subst he
        simp only [serializeVal, toBe_length]
        omega
    | i8 =>
      rw [deserialize] at h
      split at h
      · cases h
      · rename_i hlen
        injection h with he hf
        subst he
        simp only [serializeVal, List.length_cons, List.length_nil]
        omega
    | i16 =>
      rw [deserialize] at h
      split at h
      · cases h
      · rename_i hlen
        injection h with he hf
        subst he
        simp only [serializeVal, toBe_length]
        omega
    | i32 =>
      rw [deserialize] at h
      split at h
      · cases h
      · rename_i hlen
        injection h with he hf
        subst he
        simp only [serializeVal, toBe_length]
        omega
    | i64 =>
      rw [deserialize] at h
      split at h
      · cases h
      · rename_i hlen
        injection h with he hf
        subst he
        simp only [serializeVal, toBe_length]
        omega
    | i128 =>
      rw [deserialize] at h
      split at h
      · cases h
      · rename_i hlen
        injection h with he hf
        subst he
        simp only [serializeVal, toBe_length]
        omega
    | f32 =>
      rw [deserialize] at h
      split at h
      · cases h
      · rename_i hlen
        injection h with he hf
        subst he
        simp only [serializeVal, toBe_length]
        omega
    | f64 =>
      rw [deserialize] at h
      split at h
      · cases h
      · rename_i hlen
        injection h with he hf
        subst he
        simp only [serializeVal, toBe_length]
        omega
    | bool =>
      rw [deserialize] at h
      split at h
      · cases h
      · rename_i hlen
        split at h
        · injection h with he hf
          subst he
          simp only [serializeVal, List.length_cons, List.length_nil]
          omega
        · split at h
          · injection h with he hf
            subst he
            simp only [serializeVal, List.length_cons, List.length_nil]
            omega
          · cases h
    | str =>
      rw [deserialize] at h
      split at h
      · cases h
      · split at h
        · cases h
        · split at h
          · cases h
          · rename_i hlen hcr hlen2
            split at h
            · injection h with he hf
              subst he
              simp only [serializeVal, List.length_append, toBe_length, List.length_take,
                List.length_drop]
              omega
            · cases h
    | sock =>
      rw [deserialize] at h
      split at h
      · cases h
      · rename_i hlen
        split at h
        · split at h
          · cases h
          · rename_i hlen7
            injection h with he hf
            subst he
            simp only [serializeVal, List.length_append, List.length_cons, List.length_nil,
              toBe_length]
            omega
        · split at h
          · cases h
          · rename_i hlen19
            injection h with he hf
            subst he
            simp only [serializeVal, List.length_append, List.length_cons, toBe_length]
            omega
        · cases h
    | time =>
      rw [deserialize] at h
      split at h
      · cases h
      · rename_i hlen
        split at h
        · injection h with he hf
          subst he
          simp only [serializeVal, toBe_length]
          omega
        · cases h
    | vec t =>
      rw [deserialize] at h
      split at h
      · cases h
      · rename_i hlen
        split at h
        · rename_i es fin hloop
          injection h with he hf
          subst he
          have hts : tySize t ≤ N := by
            simp only [tySize] at ht
            omega
          have h2 := deLoop_consume t (fun d' v' n' => ih t hts d' v' n') (fromBe 4 d) d 4 es fin
            (by omega) hloop
          simp only [serializeVal, List.length_append, toBe_length]
          omega
        · cases h
        · cases h
    | arr m t =>
      rw [deserialize] at h
      split at h
      · rename_i es fin hloop
        injection h with he hf
        subst he
        have hts : tySize t ≤ N := by
          simp only [tySize] at ht
          omega
        have h2 := deLoop_consume t (fun d' v' n' => ih t hts d' v' n') m d 0 es fin
          (by omega) hloop
        simp only [serializeVal]
        omega
      · cases h
      · cases h
    | opt t =>
      rw [deserialize] at h
      split at h
      · cases h
      · rename_i hlen
        split at h
        · injection h with he hf
          subst he
          simp only [serializeVal, List.length_cons, List.length_nil]
          omega
        · split at h
          · rename_i w m hde
            injection h with he hf
            subst he
            have hts : tySize t ≤ N := by
              simp only [tySize] at ht
              omega
            have h2 := ih t hts (d.drop 1) w m hde
            rw [List.length_drop] at h2
            simp only [serializeVal, List.length_cons]
            omega
          · cases h
          · cases h
        · cases h
    | prod ts =>
      rw [deserialize] at h
      split at h
      · rename_i fs fin hfl
        injection h with he hf
        subst he
        have hts : ∀ t' ∈ ts, tySize t' ≤ N := by
          intro t' ht'
          have h1 := tyListSize_le_of_mem ht'
          simp only [tySize] at ht
          omega
        have h2 := deFields_consume ts (fun t' ht' d' v' n' => ih t' (hts t' ht') d' v' n')
          d 0 fs fin (by omega) hfl
        simp only [serializeVal]
        omega
      · cases h
      · cases h
    | sum vs =>
      rw [deserialize] at h
      split at h
      · cases h
      · rename_i hlen
        split at h
        · rename_i hi
          split at h
          · rename_i fs fin hfl
            injection h with he hf
            subst he
            have hts : ∀ t' ∈ vs.get ⟨d.headD 0, hi⟩, tySize t' ≤ N := by
              intro t' ht'
              have h1 := tyListSize_le_of_mem ht'
              have h2 := tyListListSize_le_of_mem (List.get_mem vs (d.headD 0) hi)
              simp only [tySize] at ht
              omega
            have h2 := deFields_consume (vs.get ⟨d.headD 0, hi⟩)
              (fun t' ht' d' v' n' => ih t' (hts t' ht') d' v' n') d 1 fs fin (by omega) hfl
            simp only [serializeVal, List.length_cons]
            omega
          · cases h
          · cases h
        · cases h

/-- Consumption invariant, packaged. -/
theorem deser_consume (t : Ty) (d : List Nat) (v : Val) (n : Nat)
    (h : deserialize t d = .ok v n) : n ≤ d.length ∧ (serializeVal v).length = n :=
  deser_consume_aux (tySize t) t le_rfl d v n h

/-- Truncation through the element loop: a proper prefix of the concatenated
element encodings makes the loop fail with a length error. -/
theorem deLoop_short (t : Ty)
    (Hrt : ∀ v : Val, hasTy t v = true → boundedVal v = true → ∀ extra : List Nat,
      deserialize t (serializeVal v ++ extra) = .ok (normalizeVal v) (serializeVal v).length)
    (Hpre : ∀ v : Val, hasTy t v = true → boundedVal v = true → ∀ p : List Nat,
      p <+: serializeVal v → p.length < (serializeVal v).length →
      deserialize t p = .error .invalidLength) :
    ∀ (es : List Val), hasTyList t es = true → boundedList es = true →
    ∀ (d : List Nat) (read : Nat) (p : List Nat),
      d.drop read = p → read ≤ d.length → p <+: serializeVals es →
      p.length < (serializeVals es).length →
      deLoop t d es.length read = .error .invalidLength := by
  intro es
  induction es with
  | nil =>
    intro _ _ d read p hdrop hle hpre hlt
    simp [serializeVals_nil] at hlt
  | cons v es ihe =>
    intro hty hb d read p hdrop hle hpre hlt
    simp only [hasTyList, Bool.and_eq_true] at hty
    simp only [boundedList, Bool.and_eq_true] at hb
    rw [serializeVals_cons] at hpre hlt
    rw [List.length_cons, deLoop, if_pos hle, hdrop]
    rcases le_or_lt (serializeVal v).length p.length with hlong | hshort
    · obtain ⟨q, rfl, hq⟩ := prefix_append_split hpre hlong
      rw [Hrt v hty.1 hb.1 q]
      have hlend : d.length - read = (serializeVal v).length + q.length := by
        have := congrArg List.length hdrop
        simp only [List.length_drop, List.length_append] at this
        omega
      have hdrop2 : d.drop (read + (serializeVal v).length) = q := by
        rw [← List.drop_drop, hdrop, List.drop_left]
      have hrec := ihe hty.2 hb.2 d (read + (serializeVal v).length) q hdrop2 (by omega) hq
        (by simp only [List.length_append] at hlt; omega)
      simp only [hrec]
    · have hp := prefix_append_short hpre (le_of_lt hshort)
      rw [Hpre v hty.1 hb.1 p hp hshort]

/-- Truncation through the derived field loop. -/
theorem deFields_short :
    ∀ (ts : List Ty) (fs : List Val),
    (∀ t ∈ ts, ∀ v : Val, hasTy t v = true → boundedVal v = true → ∀ extra : List Nat,
      deserialize t (serializeVal v ++ extra) = .ok (normalizeVal v) (serializeVal v).length) →
    (∀ t ∈ ts, ∀ v : Val, hasTy t v = true → boundedVal v = true → ∀ p : List Nat,
      p <+: serializeVal v → p.length < (serializeVal v).length →
      deserialize t p = .error .invalidLength) →
    hasTyFields ts fs = true → boundedList fs = true →
    ∀ (d : List Nat) (read : Nat) (p : List Nat),
      d.drop read = p → read ≤ d.length → p <+: serializeVals fs →
      p.length < (serializeVals fs).length →
      deFields ts d read = .error .invalidLength := by
  intro ts
  induction ts with
  | nil =>
    intro fs _ _ hty _ d read p hdrop hle hpre hlt
    cases fs with
    | nil => simp [serializeVals_nil] at hlt
    | cons v fs => simp [hasTyFields] at hty
  | cons t ts ihf =>
    intro fs Hrt Hpre hty hb d read p hdrop hle hpre hlt
    cases fs with
    | nil => simp [hasTyFields] at hty
    | cons v fs =>
      simp only [hasTyFields, Bool.and_eq_true] at hty
      simp only [boundedList, Bool.and_eq_true] at hb
      rw [serializeVals_cons] at hpre hlt
      rw [deFields, if_pos hle, hdrop]
      rcases le_or_lt (serializeVal v).length p.length with hlong | hshort
      · obtain ⟨q, rfl, hq⟩ := prefix_append_split hpre hlong
        rw [Hrt t (List.mem_cons_self t ts) v hty.1 hb.1 q]
        have hlend : d.length - read = (serializeVal v).length + q.length := by
          have := congrArg List.length hdrop
          simp only [List.length_drop, List.length_append] at this
          omega
        have hdrop2 : d.drop (read + (serializeVal v).length) = q := by
          rw [← List.drop_drop, hdrop, List.drop_left]
        have hrec := ihf fs (fun t' ht' => Hrt t' (List.mem_cons_of_mem t ht'))
          (fun t' ht' => Hpre t' (List.mem_cons_of_mem t ht')) hty.2 hb.2 d
          (read + (serializeVal v).length) q hdrop2 (by omega) hq
          (by simp only [List.length_append] at hlt; omega)
        simp only [hrec]
      · have hp := prefix_append_short hpre (le_of_lt hshort)
        rw [Hpre t (List.mem_cons_self t ts) v hty.1 hb.1 p hp hshort]

/-- Main truncation theorem (strong induction on the type): decoding any
proper prefix of the encoding of a well-typed, length-bounded value fails
with a length error. -/
theorem deser_short_aux :
    ∀ (N : Nat) (t : Ty), tySize t ≤ N → ∀ v : Val,
      hasTy t v = true → boundedVal v = true → ∀ p : List Nat,
      p <+: serializeVal v → p.length < (serializeVal v).length →
      deserialize t p = .error .invalidLength := by
  intro N
  induction N with
  | zero =>
    intro t ht
    have := tySize_pos t
    omega
  | succ N ih =>
    intro t ht v hty hb p hpre hlt
    cases t with
    | u8 =>
      cases v
      case u8 n =>
        have hw : (serializeVal (.u8 n)).length = 1 := by simp [serializeVal]
        rw [deserialize, if_pos (by omega)]
      all_goals exact Bool.noConfusion hty
    | u16 =>
      cases v
      case u16 n =>
        have hw : (serializeVal (.u16 n)).length = 2 := by simp [serializeVal]
        rw [deserialize, if_pos (by omega)]
      all_goals exact Bool.noConfusion hty
    | u32 =>
      cases v
      case u32 n =>
        have hw : (serializeVal (.u32 n)).length = 4 := by simp [serializeVal]
        rw [deserialize, if_pos (by omega)]
      all_goals exact Bool.noConfusion hty
    | u64 =>
      cases v
      case u64 n =>
        have hw : (serializeVal (.u64 n)).length = 8 := by simp [serializeVal]
        rw [deserialize, if_pos (by omega)]
      all_goals exact Bool.noConfusion hty
    | u128 =>
      cases v
      case u128 n =>
        have hw : (serializeVal (.u128 n)).length = 16 := by simp [serializeVal]
        rw [deserialize, if_pos (by omega)]
      all_goals exact Bool.noConfusion hty
    | i8 =>
      cases v
      case i8 n =>
        have hw : (serializeVal (.i8 n)).length = 1 := by simp [serializeVal]
        rw [deserialize, if_pos (by omega)]
      all_goals exact Bool.noConfusion hty
    | i16 =>
      cases v
      case i16 n =>
        have hw : (serializeVal (.i16 n)).length = 2 := by simp [serializeVal]
        rw [deserialize, if_pos (by omega)]
      all_goals exact Bool.noConfusion hty
    | i32 =>
      cases v
      case i32 n =>
        have hw : (serializeVal (.i32 n)).length = 4 := by simp [serializeVal]
        rw [deserialize, if_pos (by omega)]
      all_goals exact Bool.noConfusion hty
    | i64 =>
      cases v
      case i64 n =>
        have hw : (serializeVal (.i64 n)).length = 8 := by simp [serializeVal]
        rw [deserialize, if_pos (by omega)]
      all_goals exact Bool.noConfusion hty
    | i128 =>
      cases v
      case i128 n =>
        have hw : (serializeVal (.i128 n)).length = 16 := by simp [serializeVal]
        rw [deserialize, if_pos (by omega)]
      all_goals exact Bool.noConfusion hty
    | f32 =>
      cases v
      case f32 n =>
        have hw : (serializeVal (.f32 n)).length = 4 := by simp [serializeVal]
        rw [deserialize, if_pos (by omega)]
      all_goals exact Bool.noConfusion hty
    | f64 =>
      cases v
      case f64 n =>
        have hw : (serializeVal (.f64 n)).length = 8 := by simp [serializeVal]
        rw [deserialize, if_pos (by omega)]
      all_goals exact Bool.noConfusion hty
    | bool =>
      cases v
      case bool b =>
        have hw : (serializeVal (.bool b)).length = 1 := by cases b <;> simp [serializeVal]
        rw [deserialize, if_pos (by omega)]
      all_goals exact Bool.noConfusion hty
    | time =>
      cases v
      case time secs nanos =>
        have hw : (serializeVal (.time secs nanos)).length = 8 := by simp [serializeVal]
        rw [deserialize, if_pos (by omega)]
      all_goals exact Bool.noConfusion hty
    | str =>
      cases v
      case str bs =>
        simp only [boundedVal, decide_eq_true_eq] at hb
        have hser : serializeVal (.str bs) = toBe 4 bs.length ++ bs := by simp [serializeVal]
        rw [hser] at hpre hlt
        rcases lt_or_le p.length 4 with h4 | h4
        · rw [deserialize, if_pos h4]
        · have hfb : fromBe 4 p = bs.length := by
            rw [fromBe_of_front hpre h4, fromBe_toBe, Nat.mod_eq_of_lt (by omega)]
          rw [deserialize, if_neg (by omega), hfb, if_neg (by omega),
            if_pos (by simp only [List.length_append, toBe_length] at hlt; omega)]
      all_goals exact Bool.noConfusion hty
    | sock =>
      cases v
      case sock a =>
        cases a with
        | v4 a b c d port =>
          have hser : serializeVal (.sock (.v4 a b c d port)) =
              0 :: a :: b :: c :: d :: toBe 2 port := by simp [serializeVal]
          rw [hser] at hpre hlt
          cases p with
          | nil => rw [deserialize]; simp
          | cons x p' =>
            obtain ⟨r, hr⟩ := hpre
            simp only [List.cons_append, List.cons.injEq] at hr
            obtain ⟨rfl, -⟩ := hr
            rw [deserialize, if_neg (by simp)]
            simp only [List.headD_cons]
            rw [if_pos (by
              simp only [List.length_cons, List.length_append, toBe_length] at hlt ⊢
              omega)]
        | v6 s0 s1 s2 s3 s4 s5 s6 s7 port fl sc =>
          have hser : serializeVal (.sock (.v6 s0 s1 s2 s3 s4 s5 s6 s7 port fl sc)) =
              1 :: (toBe 2 s0 ++ (toBe 2 s1 ++ (toBe 2 s2 ++ (toBe 2 s3 ++ (toBe 2 s4 ++
                (toBe 2 s5 ++ (toBe 2 s6 ++ (toBe 2 s7 ++ toBe 2 port)))))))) := by
            simp [serializeVal]
          rw [hser] at hpre hlt
          cases p with
          | nil => rw [deserialize]; simp
          | cons x p' =>
            obtain ⟨r, hr⟩ := hpre
            simp only [List.cons_append, List.cons.injEq] at hr
            obtain ⟨rfl, -⟩ := hr
            rw [deserialize, if_neg (by simp)]
            simp only [List.headD_cons]
            rw [if_pos (by
              simp only [List.length_cons, List.length_append, toBe_length] at hlt ⊢
              omega)]
      all_goals exact Bool.noConfusion hty
    | vec t =>
      cases v
      case vec es =>
        simp only [hasTy] at hty
        simp only [boundedVal, Bool.and_eq_true, decide_eq_true_eq] at hb
        have hser : serializeVal (.vec es) = toBe 4 es.length ++ serializeVals es := by
          simp [serializeVal]
        rw [hser] at hpre hlt
        have hts : tySize t ≤ N := by
          simp only [tySize] at ht
          omega
        rcases lt_or_le p.length 4 with h4 | h4
        · rw [deserialize, if_pos h4]
        · have hfb : fromBe 4 p = es.length := by
            rw [fromBe_of_front hpre h4, fromBe_toBe, Nat.mod_eq_of_lt (by omega)]
          obtain ⟨q, rfl, hq⟩ := prefix_append_split hpre (by rw [toBe_length]; omega)
          have hlt' : q.length < (serializeVals es).length := by
            simp only [List.length_append, toBe_length] at hlt
            omega
          have hloop := deLoop_short t (fun w hw hbw extra => deser_ser t w hw hbw extra)
            (fun w hw hbw pp hpp hpl => ih t hts w hw hbw pp hpp hpl) es hty hb.2
            (toBe 4 es.length ++ q) 4 q (List.drop_left' (toBe_length 4 _))
            (by simp only [List.length_append, toBe_length]; omega) hq hlt'
          rw [deserialize, if_neg (by omega), hfb]
          simp only [hloop]
      all_goals exact Bool.noConfusion hty
    | arr m t =>
      cases v
      case arr es =>
        simp only [hasTy, Bool.and_eq_true, decide_eq_true_eq] at hty
        simp only [boundedVal] at hb
        have hser : serializeVal (.arr es) = serializeVals es := by simp [serializeVal]
        rw [hser] at hpre hlt
        have hts : tySize t ≤ N := by
          simp only [tySize] at ht
          omega
        have hloop := deLoop_short t (fun w hw hbw extra => deser_ser t w hw hbw extra)
          (fun w hw hbw pp hpp hpl => ih t hts w hw hbw pp hpp hpl) es hty.2 hb
          p 0 p (by simp) (by simp) hpre hlt
        rw [deserialize, ← hty.1]
        simp only [hloop]
      all_goals exact Bool.noConfusion hty
    | opt t =>
      cases v
      case opt o =>
        cases o with
        | none =>
          have hw : (serializeVal (.opt (none : Option Val))).length = 1 := by
            simp [serializeVal]
          rw [deserialize, if_pos (by omega)]
        | some w =>
          simp only [hasTy] at hty
          simp only [boundedVal] at hb
          have hser : serializeVal (.opt (some w)) = 1 :: serializeVal w := by
            simp [serializeVal]
          rw [hser] at hpre hlt
          cases p with
          | nil => rw [deserialize]; simp
          | cons x p' =>
            obtain ⟨r, hr⟩ := hpre
            simp only [List.cons_append, List.cons.injEq] at hr
            obtain ⟨rfl, hr2⟩ := hr
            have hts : tySize t ≤ N := by
              simp only [tySize] at ht
              omega
            have hpre' : p' <+: serializeVal w := ⟨r, hr2⟩
            have hlt' : p'.length < (serializeVal w).length := by
              simp only [List.length_cons] at hlt
              omega
            rw [deserialize, if_neg (by simp)]
            simp only [List.headD_cons, List.drop_succ_cons, List.drop_zero]
            simp only [ih t hts w hty hb p' hpre' hlt']
      all_goals exact Bool.noConfusion hty
    | prod ts =>
      cases v
      case record fs =>
        simp only [hasTy] at hty
        simp only [boundedVal] at hb
        have hser : serializeVal (.record fs) = serializeVals fs := by simp [serializeVal]
        rw [hser] at hpre hlt
        have hts : ∀ t' ∈ ts, tySize t' ≤ N := by
          intro t' ht'
          have h1 := tyListSize_le_of_mem ht'
          simp only [tySize] at ht
          omega
        have hfl := deFields_short ts fs
          (fun t' _ w hw hbw extra => deser_ser t' w hw hbw extra)
          (fun t' ht' w hw hbw pp hpp hpl => ih t' (hts t' ht') w hw hbw pp hpp hpl)
          hty hb p 0 p (by simp) (by simp) hpre hlt
        rw [deserialize]
        simp only [hfl]
      all_goals exact Bool.noConfusion hty
    | sum vs =>
      cases v
      case variant i fs =>
        simp only [hasTy, Bool.and_eq_true, decide_eq_true_eq] at hty
        simp only [boundedVal] at hb
        obtain ⟨h256, hdite⟩ := hty
        by_cases hi : i < vs.length
        · rw [dif_pos hi] at hdite
          have hser : serializeVal (.variant i fs) = i :: serializeVals fs := by
            simp [serializeVal, Nat.mod_eq_of_lt (show i < 256 by omega)]
          rw [hser] at hpre hlt
          cases p with
          | nil => rw [deserialize]; simp
          | cons x p' =>
            obtain ⟨r, hr⟩ := hpre
            simp only [List.cons_append, List.cons.injEq] at hr
            obtain ⟨hx, hr2⟩ := hr
            rw [hx]
            have hts : ∀ t' ∈ vs.get ⟨i, hi⟩, tySize t' ≤ N := by
              intro t' ht'
              have h1 := tyListSize_le_of_mem ht'
              have h2 := tyListListSize_le_of_mem (List.get_mem vs i hi)
              simp only [tySize] at ht
              omega
            have hpre' : p' <+: serializeVals fs := ⟨r, hr2⟩
            have hlt' : p'.length < (serializeVals fs).length := by
              simp only [List.length_cons] at hlt
              omega
            have hfl := deFields_short (vs.get ⟨i, hi⟩) fs
              (fun t' _ w hw hbw extra => deser_ser t' w hw hbw extra)
              (fun t' ht' w hw hbw pp hpp hpl => ih t' (hts t' ht') w hw hbw pp hpp hpl)
              hdite hb (i :: p') 1 p' (by simp) (by simp) hpre' hlt'
            rw [deserialize, if_neg (by simp)]
            simp only [List.headD_cons]
            rw [dif_pos hi]
            simp only [hfl]
        · rw [dif_neg hi] at hdite
          exact Bool.noConfusion hdite
      all_goals exact Bool.noConfusion hty

/-- Truncation, packaged. -/
theorem deser_short (t : Ty) (v : Val) (hty : hasTy t v = true) (hb : boundedVal v = true)
    (p : List Nat) (hpre : p <+: serializeVal v) (hlt : p.length < (serializeVal v).length) :
    deserialize t p = .error .invalidLength :=
  deser_short_aux (tySize t) t le_rfl v hty hb p hpre hlt

/-- C1 counterexample: the round-trip law fails as stated.  A `SystemTime`
one nanosecond after the epoch serializes to eight zero bytes (whole seconds
only), and decoding returns the epoch itself, not the original value. -/
theorem c1_counterexample :
    hasTy .time (.time 0 1) = true ∧
    boundedVal (.time 0 1) = true ∧
    deserialize .time (serializeVal (.time 0 1)) ≠
      .ok (.time 0 1) (serializeVal (.time 0 1)).length := by
  refine ⟨by simp [hasTy, sysTimeMaxSecs], by simp [boundedVal], ?_⟩
  have h : deserialize .time (serializeVal (.time 0 1)) = .ok (.time 0 0) 8 := by
    simp [serializeVal, deserialize, toBe, fromBe, sysTimeMaxSecs]
  rw [h]
  simp [serializeVal]

/-- C1 (amended): for every well-typed value whose string/sequence lengths
fit the 4-byte count framing (`boundedVal`) and which the decoder can
reproduce exactly (`normalizeVal v = v`: no subsecond timestamp part, no
nonzero V6 flowinfo/scope), decoding the encoding returns the value with
`bytes_consumed` equal to the encoding length, and arbitrary trailing bytes
change neither the value nor the count. -/
theorem c1_roundtrip (t : Ty) (v : Val) (hty : hasTy t v = true) (hb : boundedVal v = true)
    (hfix : normalizeVal v = v) (extra : List Nat) :
    deserialize t (serializeVal v ++ extra) = .ok v (serializeVal v).length ∧
    deserialize t (serializeVal v) = .ok v (serializeVal v).length := by
  constructor
  · rw [deser_ser t v hty hb extra, hfix]
  · have h := deser_ser t v hty hb []
    rw [List.append_nil] at h
    rw [h, hfix]

theorem c1_witness :
    deserialize (.prod [.u32, .str]) (serializeVal (.record [.u32 7, .str [72, 105]]) ++ [9, 9]) =
      .ok (.record [.u32 7, .str [72, 105]])
        (serializeVal (.record [.u32 7, .str [72, 105]])).length :=
  (c1_roundtrip (.prod [.u32, .str]) (.record [.u32 7, .str [72, 105]])
    (by simp [hasTy, hasTyFields, validUtf8])
    (by simp [boundedVal, boundedList])
    (by simp [normalizeVal, normalizeVals]) [9, 9]).1

/-- C2: whenever decode succeeds on a byte window, the reported consumption
never exceeds the window length and equals the length of re-encoding the
decoded value. -/
theorem c2_exact_consumption (t : Ty) (d : List Nat) (hbytes : ∀ b ∈ d, b < 256)
    (v : Val) (n : Nat) (h : deserialize t d = .ok v n) :
    n ≤ d.length ∧ (serializeVal v).length = n :=
  deser_consume t d v n h

theorem c2_witness :
    2 ≤ ([1, 2, 3] : List Nat).length ∧ (serializeVal (.u16 258)).length = 2 :=
  c2_exact_consumption .u16 [1, 2, 3] (by decide) (.u16 258) 2
    (by simp [deserialize, fromBe])

/-- A well-typed Rust `String` whose byte length is `2 ^ 32 - 4`: serializing
it is fine, but decoding any window holding its length prefix overflows the
`u32` offset computation during decode. -/
def hugeStr : Val := .str (List.replicate (2 ^ 32 - 4) 97)

/-- C3 counterexample: `[255, 255, 255, 252, 97]` is a proper non-empty
prefix of the encoding of `hugeStr` (shorter than required), yet decoding it
panics (slice bound overflow) instead of failing with a length error. -/
theorem c3_counterexample :
    hasTy .str hugeStr = true ∧
    [255, 255, 255, 252, 97] <+: serializeVal hugeStr ∧
    ([255, 255, 255, 252, 97] : List Nat).length < (serializeVal hugeStr).length ∧
    ([255, 255, 255, 252, 97] : List Nat) ≠ [] ∧
    deserialize .str [255, 255, 255, 252, 97] = .crash := by
  have htb : toBe 4 (2 ^ 32 - 4) = [255, 255, 255, 252] := by decide
  have hrep : List.replicate (2 ^ 32 - 4) 97 = 97 :: List.replicate (2 ^ 32 - 5) 97 := by
    rw [show (2 : Nat) ^ 32 - 4 = (2 ^ 32 - 5) + 1 by norm_num, List.replicate_succ]
  have hser : serializeVal hugeStr =
      [255, 255, 255, 252] ++ (97 :: List.replicate (2 ^ 32 - 5) 97) := by
    rw [show serializeVal hugeStr =
        toBe 4 (List.replicate (2 ^ 32 - 4) 97).length ++ List.replicate (2 ^ 32 - 4) 97 from
      rfl]
    rw [List.length_replicate, htb, hrep]
  have hlen : (serializeVal hugeStr).length = 2 ^ 32 := by
    rw [hser, List.length_append]
    rw [show ((97 : Nat) :: List.replicate (2 ^ 32 - 5) 97).length =
        (List.replicate (2 ^ 32 - 5) (97 : Nat)).length + 1 from List.length_cons _ _]
    rw [List.length_replicate]
    show (4 : Nat) + (2 ^ 32 - 5 + 1) = 2 ^ 32
    norm_num
  refine ⟨?_, ?_, ?_, by simp, by simp [deserialize, fromBe]⟩
  · rw [show hasTy .str hugeStr = validUtf8 (List.replicate (2 ^ 32 - 4) 97) from rfl]
    exact validUtf8_replicate _ 97 (by norm_num)
  · rw [hser]
    exact ⟨List.replicate (2 ^ 32 - 5) 97, by simp only [List.cons_append, List.nil_append]⟩
  · rw [hlen]
    norm_num

/-- C3 (amended): for every well-typed value whose string/sequence lengths
fit the 4-byte count framing (`boundedVal`), decoding any proper prefix of
its encoding fails with a truncated-input (length) error; in particular it
neither panics nor returns a value. -/
theorem c3_truncation (t : Ty) (v : Val) (hty : hasTy t v = true) (hb : boundedVal v = true)
    (p : List Nat) (hpre : p <+: serializeVal v) (hlt : p.length < (serializeVal v).length) :
    deserialize t p = .error .invalidLength :=
  deser_short t v hty hb p hpre hlt

theorem c3_witness : deserialize .u32 [0, 0] = .error .invalidLength :=
  c3_truncation .u32 (.u32 5) (by simp [hasTy]) (by simp [boundedVal]) [0, 0]
    ⟨[0, 5], by simp [serializeVal, toBe]⟩ (by simp [serializeVal])

/-- C4: a derived tagged union with variant field lists `vs` fails with a
length error on an empty window; fails with an invalid-discriminant error
when the first byte is at least the variant count; and when the first byte
`i` indexes a variant, decodes that variant's fields starting at offset 1
and returns the variant with the final accumulated offset. -/
theorem c4_enum (vs : List (List Ty)) :
    (deserialize (.sum vs) [] = .error .invalidLength) ∧
    (∀ (i : Nat) (rest : List Nat), vs.length ≤ i →
      deserialize (.sum vs) (i :: rest) = .error .invalidVariantIndex) ∧
    (∀ (i : Nat) (rest : List Nat) (h : i < vs.length) (fs : List Val) (off : Nat),
      deFields (vs.get ⟨i, h⟩) (i :: rest) 1 = .ok fs off →
      deserialize (.sum vs) (i :: rest) = .ok (.variant i fs) off) := by
  refine ⟨?_, ?_, ?_⟩
  · rw [deserialize]
    simp
  · intro i rest hge
    rw [deserialize, if_neg (by simp)]
    simp only [List.headD_cons]
    rw [dif_neg (by omega)]
  · intro i rest h fs off hfl
    rw [deserialize, if_neg (by simp)]
    simp only [List.headD_cons]
    rw [dif_pos h]
    simp only [hfl]

theorem c4_witness :
    deserialize (.sum [[Ty.u8], []]) [5] = .error .invalidVariantIndex :=
  (c4_enum [[Ty.u8], []]).2.1 5 [] (by norm_num)

/-- The UTF-8 bytes of `"Hello world"`. -/
def helloBytes : List Nat := [72, 101, 108, 108, 111, 32, 119, 111, 114, 108, 100]

/-- C5: the named record `{a: u32 = 0x12345678, b: u16 = 0x9ABC,
c: String = "Hello world"}` (a derived struct with field types
`[u32, u16, String]`) serializes to exactly the 21 bytes
`12 34 56 78 9A BC 00 00 00 0B` followed by the 11 UTF-8 bytes of
`"Hello world"`, and decoding that exact sequence returns the same record
with 21 bytes consumed. -/
theorem c5_named_record :
    serializeVal (.record [.u32 0x12345678, .u16 0x9ABC, .str helloBytes]) =
      [0x12, 0x34, 0x56, 0x78, 0x9A, 0xBC, 0x00, 0x00, 0x00, 0x0B] ++ helloBytes ∧
    ([0x12, 0x34, 0x56, 0x78, 0x9A, 0xBC, 0x00, 0x00, 0x00, 0x0B] ++ helloBytes).length = 21 ∧
    deserialize (.prod [.u32, .u16, .str])
        ([0x12, 0x34, 0x56, 0x78, 0x9A, 0xBC, 0x00, 0x00, 0x00, 0x0B] ++ helloBytes) =
      .ok (.record [.u32 0x12345678, .u16 0x9ABC, .str helloBytes]) 21 := by
  refine ⟨?_, by simp [helloBytes], ?_⟩
  · simp [serializeVal, serializeVals, helloBytes, toBe]
  · simp [deserialize, deFields, fromBe, validUtf8, helloBytes]

/-- C6 counterexample: on window `[255, 255, 255, 255]` (declared length
`2 ^ 32 - 1`, window shorter than 4 + declared), the claim requires a length
error, but the `(len + 4) as u32` computation during decode overflows and the
code panics; and for a string of byte length `2 ^ 32` the serialized length
prefix is `00 00 00 00`, not the byte length. -/
theorem c6_counterexample :
    deserialize .str [255, 255, 255, 255] = .crash ∧
    deserialize .str [255, 255, 255, 255] ≠ .error .invalidLength ∧
    List.take 4 (serializeVal (.str (List.replicate (2 ^ 32) 97))) = [0, 0, 0, 0] := by
  have hcr : deserialize .str [255, 255, 255, 255] = .crash := by
    simp [deserialize, fromBe]
  refine ⟨hcr, by rw [hcr]; simp, ?_⟩
  have hser : serializeVal (.str (List.replicate (2 ^ 32) 97)) =
      toBe 4 (2 ^ 32) ++ List.replicate (2 ^ 32) 97 := by
    rw [show serializeVal (.str (List.replicate (2 ^ 32) 97)) =
        toBe 4 (List.replicate (2 ^ 32) 97).length ++ List.replicate (2 ^ 32) 97 from rfl,
      List.length_replicate]
  rw [hser, List.take_left' (toBe_length 4 _)]
  decide

/-- C6 (amended): a `String` of byte length below `2 ^ 32` serializes to a
4-byte big-endian byte length followed by exactly those bytes; decoding
fails with a length error when the window is shorter than 4 bytes, or when
the declared length plus 4 stays within `u32` range but exceeds the window;
it panics when declared length + 4 overflows `u32` (declared ≥ `2 ^ 32 - 4`);
it fails with an invalid-text-encoding error when the declared bytes are not
valid UTF-8; and otherwise returns the string with `bytes_consumed` =
declared length + 4. -/
theorem c6_string :
    (∀ bs : List Nat, bs.length < 2 ^ 32 →
      serializeVal (.str bs) = toBe 4 bs.length ++ bs ∧
      fromBe 4 (serializeVal (.str bs)) = bs.length) ∧
    (∀ d : List Nat, d.length < 4 → deserialize .str d = .error .invalidLength) ∧
    (∀ d : List Nat, 4 ≤ d.length → fromBe 4 d + 4 < 2 ^ 32 → d.length < fromBe 4 d + 4 →
      deserialize .str d = .error .invalidLength) ∧
    (∀ d : List Nat, 4 ≤ d.length → 2 ^ 32 ≤ fromBe 4 d + 4 →
      deserialize .str d = .crash) ∧
    (∀ d : List Nat, 4 ≤ d.length → fromBe 4 d + 4 < 2 ^ 32 → fromBe 4 d + 4 ≤ d.length →
      validUtf8 ((d.drop 4).take (fromBe 4 d)) = false →
      deserialize .str d = .error .invalidUtf8) ∧
    (∀ d : List Nat, 4 ≤ d.length → fromBe 4 d + 4 < 2 ^ 32 → fromBe 4 d + 4 ≤ d.length →
      validUtf8 ((d.drop 4).take (fromBe 4 d)) = true →
      deserialize .str d = .ok (.str ((d.drop 4).take (fromBe 4 d))) (fromBe 4 d + 4)) := by
  refine ⟨?_, ?_, ?_, ?_, ?_, ?_⟩
  · intro bs hlen
    have hser : serializeVal (.str bs) = toBe 4 bs.length ++ bs := by simp [serializeVal]
    refine ⟨hser, ?_⟩
    rw [hser, fromBe_toBe_of_lt (show bs.length < 256 ^ 4 by omega)]
  · intro d h4
    rw [deserialize, if_pos h4]
  · intro d h4 hcr hlen
    rw [deserialize, if_neg (by omega), if_neg (by omega), if_pos hlen]
  · intro d h4 hcr
    rw [deserialize, if_neg (by omega), if_pos hcr]
  · intro d h4 hcr hlen hu
    rw [deserialize, if_neg (by omega), if_neg (by omega), if_neg (by omega), if_neg (by
      rw [hu]; simp)]
  · intro d h4 hcr hlen hu
    rw [deserialize, if_neg (by omega), if_neg (by omega), if_neg (by omega), if_pos hu]

theorem c6_witness : deserialize .str [0] = .error .invalidLength :=
  c6_string.2.1 [0] (by simp)

/-- C7: V4 socket addresses serialize as family byte 0, four octets and a
2-byte big-endian port (7 bytes total); V6 addresses as family byte 1,
sixteen address octets and the port (19 bytes total); decode consumes
exactly 7 or 19 bytes, fails with a length error on shorter windows, and
fails with an invalid-address error when the first byte is 2 or more. -/
theorem c7_sockaddr :
    (∀ a b c d port : Nat,
      serializeVal (.sock (.v4 a b c d port)) = [0, a, b, c, d] ++ toBe 2 port ∧
      (serializeVal (.sock (.v4 a b c d port))).length = 7) ∧
    (∀ s0 s1 s2 s3 s4 s5 s6 s7 port fl sc : Nat,
      serializeVal (.sock (.v6 s0 s1 s2 s3 s4 s5 s6 s7 port fl sc)) =
        1 :: (toBe 2 s0 ++ toBe 2 s1 ++ toBe 2 s2 ++ toBe 2 s3 ++ toBe 2 s4 ++ toBe 2 s5 ++
          toBe 2 s6 ++ toBe 2 s7) ++ toBe 2 port ∧
      (serializeVal (.sock (.v6 s0 s1 s2 s3 s4 s5 s6 s7 port fl sc))).length = 19) ∧
    (deserialize .sock [] = .error .invalidLength) ∧
    (∀ rest : List Nat, rest.length < 6 →
      deserialize .sock (0 :: rest) = .error .invalidLength) ∧
    (∀ rest : List Nat, 6 ≤ rest.length →
      deserialize .sock (0 :: rest) =
        .ok (.sock (.v4 (rest.getD 0 0) (rest.getD 1 0) (rest.getD 2 0) (rest.getD 3 0)
          (fromBe 2 (rest.drop 4)))) 7) ∧
    (∀ rest : List Nat, rest.length < 18 →
      deserialize .sock (1 :: rest) = .error .invalidLength) ∧
    (∀ rest : List Nat, 18 ≤ rest.length →
      deserialize .sock (1 :: rest) =
        .ok (.sock (.v6 (fromBe 2 rest) (fromBe 2 (rest.drop 2)) (fromBe 2 (rest.drop 4))
          (fromBe 2 (rest.drop 6)) (fromBe 2 (rest.drop 8)) (fromBe 2 (rest.drop 10))
          (fromBe 2 (rest.drop 12)) (fromBe 2 (rest.drop 14)) (fromBe 2 (rest.drop 16))
          0 0)) 19) ∧
    (∀ (k : Nat) (rest : List Nat),
      deserialize .sock ((k + 2) :: rest) = .error .invalidAddressType) := by
  refine ⟨?_, ?_, ?_, ?_, ?_, ?_, ?_, ?_⟩
  · intro a b c d port
    exact ⟨by simp [serializeVal], by simp [serializeVal]⟩
  · intro s0 s1 s2 s3 s4 s5 s6 s7 port fl sc
    constructor
    · simp [serializeVal]
    · simp [serializeVal, List.length_append]
  · rw [deserialize]
    simp
  · intro rest hlen
    rw [deserialize, if_neg (by simp)]
    simp only [List.headD_cons]
    rw [if_pos (by simp only [List.length_cons]; omega)]
  · intro rest hlen
    rw [deserialize, if_neg (by simp)]
    simp only [List.headD_cons]
    rw [if_neg (by simp only [List.length_cons]; omega)]
    simp [List.getD]
  · intro rest hlen
    rw [deserialize, if_neg (by simp)]
    simp only [List.headD_cons]
    rw [if_pos (by simp only [List.length_cons]; omega)]
  · intro rest hlen
    rw [deserialize, if_neg (by simp)]
    simp only [List.headD_cons]
    rw [if_neg (by simp only [List.length_cons]; omega)]
    simp only [List.drop_succ_cons, List.drop_zero]
  · intro k rest
    rw [deserialize, if_neg (by simp)]
    simp only [List.headD_cons]

theorem c7_witness : deserialize .sock [5, 1, 2] = .error .invalidAddressType := by
  have h := (c7_sockaddr).2.2.2.2.2.2.2 3 [1, 2]
  norm_num at h
  exact h

/-- C8: an absolute timestamp serializes as exactly the 8-byte big-endian
count of whole seconds since the epoch; decode reads those 8 bytes and
returns the epoch plus that count with 8 bytes consumed, fails with a length
error on a window shorter than 8 bytes, and fails with an invalid-time error
exactly when the stored count exceeds the representable seconds of the platform
(`sysTimeMaxSecs`, the overflow of `UNIX_EPOCH.checked_add`). -/
theorem c8_systemtime :
    (∀ secs nanos : Nat, serializeVal (.time secs nanos) = toBe 8 secs ∧
      (serializeVal (.time secs nanos)).length = 8) ∧
    (∀ d : List Nat, d.length < 8 → deserialize .time d = .error .invalidLength) ∧
    (∀ d : List Nat, 8 ≤ d.length → fromBe 8 d ≤ sysTimeMaxSecs →
      deserialize .time d = .ok (.time (fromBe 8 d) 0) 8) ∧
    (∀ d : List Nat, 8 ≤ d.length → sysTimeMaxSecs < fromBe 8 d →
      deserialize .time d = .error .invalidTime) := by
  refine ⟨?_, ?_, ?_, ?_⟩
  · intro secs nanos
    exact ⟨by simp [serializeVal], by simp [serializeVal]⟩
  · intro d hlen
    rw [deserialize, if_pos hlen]
  · intro d hlen hle
    rw [deserialize, if_neg (by omega), if_pos hle]
  · intro d hlen hgt
    rw [deserialize, if_neg (by omega), if_neg (by omega)]

theorem c8_witness : deserialize .time [0, 0, 0, 0, 0, 0, 0, 1] = .ok (.time 1 0) 8 := by
  have h := c8_systemtime.2.2.1 [0, 0, 0, 0, 0, 0, 0, 1] (by simp) (by decide)
  simpa [fromBe] using h

/-- C9: serializing a V6 socket address discards `flowinfo` and `scope_id`
(the encoding does not depend on them); every V6 value the decoder returns
carries `flowinfo = 0` and `scope_id = 0`; hence decode of encode returns the
original V6 value exactly when both fields are zero. -/
theorem c9_v6_lossy :
    (∀ s0 s1 s2 s3 s4 s5 s6 s7 port fl sc : Nat,
      serializeVal (.sock (.v6 s0 s1 s2 s3 s4 s5 s6 s7 port fl sc)) =
        serializeVal (.sock (.v6 s0 s1 s2 s3 s4 s5 s6 s7 port 0 0))) ∧
    (∀ (d : List Nat) (s0 s1 s2 s3 s4 s5 s6 s7 port fl sc n : Nat),
      deserialize .sock d = .ok (.sock (.v6 s0 s1 s2 s3 s4 s5 s6 s7 port fl sc)) n →
      fl = 0 ∧ sc = 0) ∧
    (∀ s0 s1 s2 s3 s4 s5 s6 s7 port fl sc : Nat,
      s0 < 2 ^ 16 → s1 < 2 ^ 16 → s2 < 2 ^ 16 → s3 < 2 ^ 16 → s4 < 2 ^ 16 → s5 < 2 ^ 16 →
      s6 < 2 ^ 16 → s7 < 2 ^ 16 → port < 2 ^ 16 →
      (deserialize .sock (serializeVal (.sock (.v6 s0 s1 s2 s3 s4 s5 s6 s7 port fl sc))) =
          .ok (.sock (.v6 s0 s1 s2 s3 s4 s5 s6 s7 port fl sc)) 19 ↔
        (fl = 0 ∧ sc = 0))) := by
  refine ⟨?_, ?_, ?_⟩
  · intro s0 s1 s2 s3 s4 s5 s6 s7 port fl sc
    simp [serializeVal]
  · intro d s0 s1 s2 s3 s4 s5 s6 s7 port fl sc n h
    rw [deserialize] at h
    split at h
    · cases h
    · split at h
      · split at h
        · cases h
        · injection h with he hn
          injection he with he2
          cases he2
      · split at h
        · cases h
        · injection h with he hn
          injection he with he2
          injection he2 with e0 e1 e2 e3 e4 e5 e6 e7 ep efl esc
          exact ⟨efl.symm, esc.symm⟩
      · cases h
  · intro s0 s1 s2 s3 s4 s5 s6 s7 port fl sc h0 h1 h2 h3 h4 h5 h6 h7 hp
    have hrt := rt_sock_v6 s0 s1 s2 s3 s4 s5 s6 s7 port fl sc h0 h1 h2 h3 h4 h5 h6 h7 hp []
    rw [List.append_nil] at hrt
    have hlen : (serializeVal (.sock (.v6 s0 s1 s2 s3 s4 s5 s6 s7 port fl sc))).length = 19 := by
      simp [serializeVal, List.length_append]
    rw [hlen] at hrt
    simp only [normalizeVal] at hrt
    constructor
    · intro h
      rw [hrt] at h
      injection h with he hn
      injection he with he2
      injection he2 with e0 e1 e2 e3 e4 e5 e6 e7 ep efl esc
      exact ⟨efl.symm, esc.symm⟩
    · rintro ⟨rfl, rfl⟩
      exact hrt

theorem c9_witness :
    deserialize .sock (serializeVal (.sock (.v6 1 2 3 4 5 6 7 8 80 0 0))) =
      .ok (.sock (.v6 1 2 3 4 5 6 7 8 80 0 0)) 19 :=
  ((c9_v6_lossy).2.2 1 2 3 4 5 6 7 8 80 0 0 (by norm_num) (by norm_num) (by norm_num)
    (by norm_num) (by norm_num) (by norm_num) (by norm_num) (by norm_num)
    (by norm_num)).mpr ⟨rfl, rfl⟩

/-- Models `impl Serializable for SystemTime::serialize` including its failure
mode.  A `SystemTime` is an instant, here the signed count `tNanos` of
nanoseconds relative to the Unix epoch.  `self.duration_since(UNIX_EPOCH)`
returns `Err` for instants before the epoch and the source unwraps it with
`.expect(..)`, which panics (`none`); otherwise the duration's whole-second
count is serialized as 8 big-endian bytes. -/
def sysTimeSerialize (tNanos : Int) : Option (List Nat) :=
  if tNanos < 0 then none
  else some (toBe 8 ((tNanos / 1000000000).toNat))

/-- C10: `SystemTime::serialize` is partial: it panics on every instant
before the Unix epoch, and returns the 8 whole-second big-endian bytes on
every instant at or after it. -/
theorem c10_encode_pre_epoch :
    (∀ tNanos : Int, tNanos < 0 → sysTimeSerialize tNanos = none) ∧
    (∀ tNanos : Int, 0 ≤ tNanos →
      sysTimeSerialize tNanos = some (toBe 8 ((tNanos / 1000000000).toNat))) := by
  constructor
  · intro t ht
    rw [sysTimeSerialize, if_pos ht]
  · intro t ht
    rw [sysTimeSerialize, if_neg (by omega)]

theorem c10_witness : sysTimeSerialize (-1) = none :=
  c10_encode_pre_epoch.1 (-1) (by norm_num)
